import Mathlib

/-!
# External sort: chunk splitter and k-way merge

A shallow embedding of `sort.go` (package `extsort`): the collection type
`SortCollection` with its `Len`, `Swap` and `Less`, the chunk splitter
`ExternalSort`, and the k-way merge `NWayMergeGenerator` with its `producer`
and `consumer` closures.

Conventions of the embedding.

* A value of the Go interface type `SortInterface` is an `Option ρ`: `none`
  is the nil interface, `some r` a record.  The method `Less` of the record
  type is a function `ρ → Option ρ → Except ε Bool` (its argument may be nil,
  and it may report an error).
* The collaborators that are not part of the repository are parameters: the
  msgpack codec (`Codec`), the storage layer (`FileSystemInterface`, an oracle
  telling which call fails, together with a `Disk` holding the chunk files).
* A goroutine feeding a channel is the list of values it sends followed by how
  it ends (`ChanEnd`); every channel has one sender and one receiver, so what
  the receiver sees does not depend on scheduling.
* Process termination (`log.Fatalf`, `os.Exit`) and Go panics are explicit
  outcomes.
-/

namespace ExtSort

/-- A byte string; bytes are natural numbers. -/
abbrev Bytes := List Nat

/-- The files of the storage layer, most recently written first. -/
abbrev Disk := List (String × Bytes)

/-- A Go panic raised inside the sort. -/
inductive Panic (ε : Type) where
  /-- Index out of range in a slice access. -/
  | indexOutOfRange : Panic ε
  /-- The panic of `SortCollection.Less`, "Failed to sort", carrying the comparator error. -/
  | failedToSort (e : ε) : Panic ε
  deriving DecidableEq, Repr

/-- The slice type `SortCollection = []SortInterface`. -/
abbrev SortCollection (ρ : Type) := List (Option ρ)

/-- The method `Len`. -/
def SortCollection.Len {ρ : Type} (s : SortCollection ρ) : Nat := s.length

/-- The method `Swap`: `s[i], s[j] = s[j], s[i]`. -/
def SortCollection.Swap {ρ ε : Type} (s : SortCollection ρ) (i j : Nat) :
    Except (Panic ε) (SortCollection ρ) :=
  match s[i]?, s[j]? with
  | some a, some b => .ok ((s.set i b).set j a)
  | _, _ => .error .indexOutOfRange

/-- The method `Less`: false when `s[i]` is nil, the comparator verdict of
`s[i]` against `s[j]` otherwise, a panic when the comparator reports an error. -/
def SortCollection.Less {ρ ε : Type} (less : ρ → Option ρ → Except ε Bool)
    (s : SortCollection ρ) (i j : Nat) : Except (Panic ε) Bool :=
  match s[i]? with
  | none => .error .indexOutOfRange
  | some none => .ok false
  | some (some x) =>
    match s[j]? with
    | none => .error .indexOutOfRange
    | some y =>
      match less x y with
      | .ok ret => .ok ret
      | .error err => .error (.failedToSort err)

/-- The inner loop of the standard library routine `insertionSort`:
`for j := i; j > 0 && data.Less(j, j-1); j-- { data.Swap(j, j-1) }`,
started at `j`. -/
def insertionInner {ρ ε : Type} (less : ρ → Option ρ → Except ε Bool) :
    Nat → SortCollection ρ → Except (Panic ε) (SortCollection ρ)
  | 0, s => .ok s
  | j + 1, s =>
    match SortCollection.Less less s (j + 1) j with
    | .error p => .error p
    | .ok false => .ok s
    | .ok true =>
      match SortCollection.Swap s (j + 1) j with
      | .error p => .error p
      | .ok s' => insertionInner less j s'

/-- The outer loop of `insertionSort`: `for i := a + 1; i < b; i++`, with
`k` iterations left and the current value of `i`. -/
def insertionOuter {ρ ε : Type} (less : ρ → Option ρ → Except ε Bool) :
    Nat → Nat → SortCollection ρ → Except (Panic ε) (SortCollection ρ)
  | 0, _, s => .ok s
  | k + 1, i, s =>
    match insertionInner less i s with
    | .error p => .error p
    | .ok s' => insertionOuter less k (i + 1) s'

/-- The call `sort.Sort(data)`. The standard library is not part of the
repository; it is embedded by its insertion sort (the routine it runs on short
slices), which reaches the collection through `Len`, `Less` and `Swap` only. -/
def sort_Sort {ρ ε : Type} (less : ρ → Option ρ → Except ε Bool) (data : SortCollection ρ) :
    Except (Panic ε) (SortCollection ρ) :=
  insertionOuter less (SortCollection.Len data - 1) 1 data

/-- The msgpack collaborator: `msgpack.Marshal` on the record count and on a
record, and `Decoder.Decode` into an `int` and into a fresh
`sort_params.Instance()`; decoding consumes a prefix of the stream and hands
back the rest. -/
structure Codec (ρ ε : Type) where
  marshalInt : Int → Except ε Bytes
  marshal : Option ρ → Except ε Bytes
  decodeInt : Bytes → Except ε (Int × Bytes)
  decode : Bytes → Except ε (ρ × Bytes)

/-- The storage collaborator `easyfiles.FileSystemInterface` as an oracle:
for each call the error it returns, if any. `openRead` stands for opening
the input and scanning it into lines (`asyncReadLine`); `write path k` is the
`k`-th call of `Write` on the writer of `path`. -/
structure FileSystemInterface (ε : Type) where
  openRead : String → Except ε (List String)
  openWrite : String → Option ε
  writer : String → Option ε
  write : String → Nat → Option ε
  flush : String → Option ε
  closeWriter : String → Option ε
  closeFile : String → Option ε
  openChunk : String → Option ε
  rawReader : String → Option ε

/-- The struct `SortParams`, with the method `Less` of the record type and the
codec the code reaches through `msgpack` and `Instance`. -/
structure SortParams (ρ ε : Type) where
  Less : ρ → Option ρ → Except ε Bool
  LineConvert : String → Option ρ
  Lines : SortCollection ρ
  FSInterface : FileSystemInterface ε
  codec : Codec ρ ε

/-- The verb `%08d` of `fmt.Sprintf` on a non-negative integer: decimal,
padded with zeros on the left to at least eight digits. -/
def pad8 (n : Nat) : List Char :=
  List.replicate (8 - (Nat.toDigits 10 n).length) '0' ++ Nat.toDigits 10 n

/-- The chunk path `fmt.Sprintf("%s.chunk.%08d.gz", file, chunk_idx)`. -/
def chunkName (file : String) (chunk_idx : Nat) : String :=
  file ++ ".chunk." ++ String.mk (pad8 chunk_idx) ++ ".gz"

/-- One pass of the reading loop body of `ExternalSort` on a received line:
the buffer and the byte count after the line. -/
def bufferLine {ρ : Type} (LineConvert : String → Option ρ) (line : String)
    (Lines : SortCollection ρ) (bytes_read : Int) : SortCollection ρ × Int :=
  match LineConvert line with
  | some object => (Lines ++ [some object], bytes_read + line.utf8ByteSize)
  | none => (Lines, bytes_read)

/-- The inner `for` loop of `ExternalSort` (lines 93-112): receive lines
until the channel is closed or `bytes_read > bufsize`; returns the buffer and
the lines still in the channel. -/
def readLines {ρ : Type} (LineConvert : String → Option ρ) (bufsize : Int) :
    List String → SortCollection ρ → Int → SortCollection ρ × List String
  | [], Lines, _ => (Lines, [])
  | line :: rest, Lines, bytes_read =>
    if (bufferLine LineConvert line Lines bytes_read).2 > bufsize then
      ((bufferLine LineConvert line Lines bytes_read).1, rest)
    else
      readLines LineConvert bufsize rest (bufferLine LineConvert line Lines bytes_read).1
        (bufferLine LineConvert line Lines bytes_read).2

/-- How the loop writing the records of a chunk ends. -/
inductive WriteEnd (ε : Type) where
  /-- Every record written; the bytes of the file. -/
  | done (bytes : Bytes) : WriteEnd ε
  /-- A `msgpack.Marshal` on a record failed. -/
  | marshalErr (e : ε) : WriteEnd ε
  /-- A `Write` of a record failed: `log.Fatalf`. -/
  | fatal : WriteEnd ε
  deriving DecidableEq, Repr

/-- The loop `for _, object := range sort_params.Lines` (lines 148-158);
`k` is the number of `Write` calls made so far and `acc` what they wrote. -/
def writeObjects {ρ ε : Type} (codec : Codec ρ ε) (fs : FileSystemInterface ε)
    (path : String) : SortCollection ρ → Nat → Bytes → WriteEnd ε
  | [], _, acc => .done acc
  | object :: rest, k, acc =>
    match codec.marshal object with
    | .error e => .marshalErr e
    | .ok b =>
      match fs.write path k with
      | some _ => .fatal
      | none => writeObjects codec fs path rest (k + 1) (acc ++ b)

/-- How a call of `ExternalSort` ends. -/
inductive SplitEnd (ε : Type) where
  /-- The function returned `(chunks, err)`. -/
  | returned (chunks : List String) (err : Option ε) : SplitEnd ε
  /-- The process was terminated by `log.Fatalf`. -/
  | fatal : SplitEnd ε
  /-- The panic of `SortCollection.Less` left `sort.Sort`. -/
  | panic (p : Panic ε) : SplitEnd ε
  /-- The iteration bound of the embedding was reached (shown unreachable). -/
  | outOfFuel : SplitEnd ε
  deriving DecidableEq, Repr

/-- The end of a call of `ExternalSort` and the chunk files completed by then. -/
structure SplitResult (ε : Type) where
  fin : SplitEnd ε
  disk : Disk
  deriving DecidableEq, Repr

/-- The outer `for` loop of `ExternalSort` (lines 90-187). A chunk file
enters `disk` when its writer has been flushed and closed; what a failed flush
leaves behind is not modelled. -/
def splitLoop {ρ ε : Type} (sort_params : SortParams ρ ε) (file : String) (bufsize : Int) :
    Nat → List String → Nat → List String → Disk → SplitResult ε
  | 0, _, _, _, disk => ⟨.outOfFuel, disk⟩
  | fuel + 1, input, chunk_idx, chunks, disk =>
    if SortCollection.Len (readLines sort_params.LineConvert bufsize input [] 0).1 = 0 then
      ⟨.returned chunks none, disk⟩
    else
      match sort_Sort sort_params.Less (readLines sort_params.LineConvert bufsize input [] 0).1 with
      | .error p => ⟨.panic p, disk⟩
      | .ok Lines =>
        match sort_params.FSInterface.openWrite (chunkName file chunk_idx) with
        | some err => ⟨.returned chunks (some err), disk⟩
        | none =>
          match sort_params.FSInterface.writer (chunkName file chunk_idx) with
          | some err => ⟨.returned chunks (some err), disk⟩
          | none =>
            match sort_params.codec.marshalInt (SortCollection.Len Lines) with
            | .error err => ⟨.returned [] (some err), disk⟩
            | .ok b =>
              match sort_params.FSInterface.write (chunkName file chunk_idx) 0 with
              | some err => ⟨.returned [] (some err), disk⟩
              | none =>
                match writeObjects sort_params.codec sort_params.FSInterface
                    (chunkName file chunk_idx) Lines 1 b with
                | .marshalErr err => ⟨.returned [] (some err), disk⟩
                | .fatal => ⟨.fatal, disk⟩
                | .done bytes =>
                  match sort_params.FSInterface.flush (chunkName file chunk_idx),
                      sort_params.FSInterface.closeWriter (chunkName file chunk_idx),
                      sort_params.FSInterface.closeFile (chunkName file chunk_idx) with
                  | none, none, none =>
                    splitLoop sort_params file bufsize fuel
                      (readLines sort_params.LineConvert bufsize input [] 0).2
                      (chunk_idx + 1) (chunks ++ [chunkName file chunk_idx])
                      ((chunkName file chunk_idx, bytes) :: disk)
                  | _, _, _ => ⟨.fatal, disk⟩

/-- The function `ExternalSort(file, bufsize, sort_params)`, run on a storage
holding `disk`. Every round of the outer loop that writes a chunk receives at
least one line, so `input.length + 1` rounds are enough. -/
def ExternalSort {ρ ε : Type} (file : String) (bufsize : Int) (sort_params : SortParams ρ ε)
    (disk : Disk) : SplitResult ε :=
  match sort_params.FSInterface.openRead file with
  | .error err => ⟨.returned [] (some err), disk⟩
  | .ok input => splitLoop sort_params file bufsize (input.length + 1) input 0 [] disk

/-- How the goroutine feeding a channel ends: it closes the channel, or the
process is terminated (`log.Fatalf`) before it does. -/
inductive ChanEnd where
  | closed : ChanEnd
  | dead : ChanEnd
  deriving DecidableEq, Repr

/-- A per-chunk channel as its receiver sees it: the records still to be
received, in order, and how the sender ends after them. -/
structure Chan (ρ : Type) where
  items : List ρ
  fin : ChanEnd
  deriving DecidableEq, Repr

/-- The loop `for idx := 0; idx < numObjects; idx++` of `producer` (lines
223-230), with `n` iterations left: decode a record and send it; a failed
decode is `log.Fatalf`. -/
def decodeObjects {ρ ε : Type} (codec : Codec ρ ε) : Nat → Bytes → Chan ρ
  | 0, _ => ⟨[], .closed⟩
  | n + 1, stream =>
    match codec.decode stream with
    | .error _ => ⟨[], .dead⟩
    | .ok (s, rest) => ⟨s :: (decodeObjects codec n rest).items, (decodeObjects codec n rest).fin⟩

/-- The closure `producer` (lines 211-234) on the bytes of its chunk: decode
the count (`log.Fatalf` on failure), then that many records, then close the
channel. A negative count runs the loop zero times. -/
def producer {ρ ε : Type} (codec : Codec ρ ε) (stream : Bytes) : Chan ρ :=
  match codec.decodeInt stream with
  | .error _ => ⟨[], .dead⟩
  | .ok (numObjects, rest) => decodeObjects codec numObjects.toNat rest

/-- How the filling pass of the coordinator ends. -/
inductive FillEnd (ρ : Type) where
  /-- The pass went through every chunk: the frontier, the channels and `more`. -/
  | filled (loglines : List (Option ρ)) (channels : List (Chan ρ)) ( more : Bool) : FillEnd ρ
  /-- The receive is on a channel whose sender was terminated with the process. -/
  | dead : FillEnd ρ
  deriving DecidableEq, Repr

/-- The filling pass `for idx, chunk := range chunks` of `consumer` (lines
244-257): every nil slot receives from its channel; a closed and drained
channel leaves the slot nil. -/
def fill {ρ : Type} : List (Option ρ) → List (Chan ρ) → FillEnd ρ
  | slot :: loglines, channel :: channels =>
    match slot with
    | some x =>
      match fill loglines channels with
      | .filled ls cs _ => .filled (some x :: ls) (channel :: cs) true
      | .dead => .dead
    | none =>
      match channel.items with
      | logline :: later =>
        match fill loglines channels with
        | .filled ls cs _ => .filled (some logline :: ls) (⟨later, channel.fin⟩ :: cs) true
        | .dead => .dead
      | [] =>
        match channel.fin with
        | .dead => .dead
        | .closed =>
          match fill loglines channels with
          | .filled ls cs more => .filled (none :: ls) (channel :: cs) more
          | .dead => .dead
  | _, _ => .filled [] [] false

/-- The selection scan `for idx, logline := range loglines` of `consumer`
(lines 271-283) from position `idx` on, with the current `min` and `min_idx`;
a comparator error ends it, and is kept with the `min` it was raised against,
which the error branch goes on to print. -/
def scanMin {ρ ε : Type} (less : ρ → Option ρ → Except ε Bool) :
    List (Option ρ) → Nat → Option ρ → Nat → Except (ε × Option ρ) (Option ρ × Nat)
  | [], _, min, min_idx => .ok (min, min_idx)
  | none :: rest, idx, min, min_idx => scanMin less rest (idx + 1) min min_idx
  | some logline :: rest, idx, min, min_idx =>
    match less logline min with
    | .error err => .error (err, min)
    | .ok true => scanMin less rest (idx + 1) (some logline) idx
    | .ok false => scanMin less rest (idx + 1) min min_idx

/-- The selection step (lines 269-283): `min := loglines[0]; min_idx := 0`
and the scan of the whole frontier. The step is reached with `more` true
only, hence with at least one chunk, so `loglines[0]` is in range. -/
def selectMin {ρ ε : Type} (less : ρ → Option ρ → Except ε Bool)
    (loglines : List (Option ρ)) : Except (ε × Option ρ) (Option ρ × Nat) :=
  scanMin less loglines 0 loglines.head?.join 0

/-- How the output sequence of the merge ends. -/
inductive MergeEnd (ε : Type) where
  /-- The coordinator left its loop and closed `outChan`. -/
  | done : MergeEnd ε
  /-- The comparator failed in the selection against a record: the two
  records are printed and the process ends by `os.Exit(-1)`. -/
  | exit (e : ε) : MergeEnd ε
  /-- The comparator failed in the selection against a nil `min`: printing
  evaluates `min.String()` on the nil interface (line 274), a nil dereference
  panic, before `os.Exit` is reached. -/
  | nilDeref : MergeEnd ε
  /-- A worker or the set-up called `log.Fatalf`. -/
  | fatal : MergeEnd ε
  /-- The selected slot was nil: `outChan` is closed and then sent on, a panic. -/
  | panic : MergeEnd ε
  /-- Two entries of the chunk list are the same path: their workers share
  one reader and one channel, and the outcome depends on scheduling. -/
  | race : MergeEnd ε
  /-- The iteration bound of the embedding was reached (shown unreachable). -/
  | outOfFuel : MergeEnd ε
  deriving DecidableEq, Repr

/-- The records sent on `outChan`, in order, and how the sequence ends. When
the end is `fatal` the process may have been terminated at any earlier point
of the sequence as well; `out` is then the longest sequence still possible. -/
structure MergeRun (ρ ε : Type) where
  out : List ρ
  fin : MergeEnd ε
  deriving DecidableEq, Repr

/-- The main loop of `consumer` (lines 242-301): fill, stop when nothing is
left, select, clear the selected slot, send. A comparator error in the
selection prints `logline.String()` and `min.String()` and exits; when `min`
is nil the second call panics. -/
def consumerLoop {ρ ε : Type} (less : ρ → Option ρ → Except ε Bool) :
    Nat → List (Option ρ) → List (Chan ρ) → MergeRun ρ ε
  | 0, _, _ => ⟨[], .outOfFuel⟩
  | fuel + 1, loglines, channels =>
    match fill loglines channels with
    | .dead => ⟨[], .fatal⟩
    | .filled _ _ false => ⟨[], .done⟩
    | .filled loglines' channels' true =>
      match selectMin less loglines' with
      | .error (err, some _) => ⟨[], .exit err⟩
      | .error (_, none) => ⟨[], .nilDeref⟩
      | .ok (_, min_idx) =>
        match loglines'[min_idx]?.join with
        | none => ⟨[], .panic⟩
        | some next_line =>
          ⟨next_line :: (consumerLoop less fuel (loglines'.set min_idx none) channels').out,
            (consumerLoop less fuel (loglines'.set min_idx none) channels').fin⟩

/-- The closure `consumer` (lines 237-303) on the channels of the chunks, in
the order of the chunk list: `loglines` starts all nil; every round but the
last sends one record, so one round more than there are records is enough. -/
def consumer {ρ ε : Type} (less : ρ → Option ρ → Except ε Bool) (channels : List (Chan ρ)) :
    MergeRun ρ ε :=
  consumerLoop less ((channels.map fun c => c.items.length).sum + 1)
    (List.replicate channels.length none) channels

/-- The set-up loop of `NWayMergeGenerator` (lines 310-325): open every chunk
and take its raw reader; `none` when a call fails (`log.Fatalf`). A path
absent from the storage cannot be opened. -/
def openChunks {ε : Type} (fs : FileSystemInterface ε) (disk : Disk) :
    List String → Option (List Bytes)
  | [] => some []
  | chunk :: rest =>
    match fs.openChunk chunk, disk.lookup chunk, fs.rawReader chunk with
    | none, some stream, none =>
      match openChunks fs disk rest with
      | some streams => some (stream :: streams)
      | none => none
    | _, _, _ => none

/-- The function `NWayMergeGenerator(chunks, sort_params)` on a storage
holding `disk`: what is sent on the channel it returns, and the error it
returns, which is always nil. The optional `channel_size` only sizes the
buffer of `outChan` and is left out. -/
def NWayMergeGenerator {ρ ε : Type} (chunks : List String) (sort_params : SortParams ρ ε)
    (disk : Disk) : MergeRun ρ ε × Option ε :=
  (if chunks.Nodup then
      match openChunks sort_params.FSInterface disk chunks with
      | none => ⟨[], .fatal⟩
      | some streams => consumer sort_params.Less (streams.map (producer sort_params.codec))
    else ⟨[], .race⟩,
   none)

/-! ## Fixtures: the record type `Int` of the tests and simple collaborators -/

/-- The method `Less` of the test record type `*Int` (sort_test.go, lines
27-46) on a non-nil receiver and an argument that is nil or another `*Int`. -/
def IntLess (l : Int) (s : Option Int) : Except String Bool :=
  match s with
  | some o => .ok (decide (l < o))
  | none => .ok true

/-- Decimal digits to a number, most significant first; `none` on any other character. -/
def atoiDigits : List Char → Nat → Option Nat
  | [], acc => some acc
  | c :: cs, acc => if c.isDigit then atoiDigits cs (10 * acc + (c.toNat - 48)) else none

/-- The range check of `strconv.Atoi` on a 64-bit platform: a value outside
`int` is an error. -/
def inIntRange (v : Int) : Option Int :=
  if -9223372036854775808 ≤ v ∧ v ≤ 9223372036854775807 then some v else none

/-- The function `ParseInt` of the tests (lines 50-57): `strconv.Atoi`, nil on
failure; an optional sign followed by at least one decimal digit, of a value
that fits a 64-bit `int`. -/
def ParseInt (line : String) : Option Int :=
  match line.data with
  | [] => none
  | '-' :: c :: cs => (atoiDigits (c :: cs) 0).bind fun n => inIntRange (-(n : Int))
  | '+' :: c :: cs => (atoiDigits (c :: cs) 0).bind fun n => inIntRange (n : Int)
  | c :: cs =>
    if c = '-' ∨ c = '+' then none
    else (atoiDigits (c :: cs) 0).bind fun n => inIntRange (n : Int)

/-- A codec for integers: a count is one byte; a record is a sign byte and a
magnitude byte; decoding fails at the end of the stream. -/
def intCodec : Codec Int String where
  marshalInt := fun n => .ok [n.toNat]
  marshal := fun r =>
    match r with
    | some v => .ok [if v < 0 then 1 else 0, v.natAbs]
    | none => .error "nil"
  decodeInt := fun stream =>
    match stream with
    | n :: rest => .ok ((n : Int), rest)
    | [] => .error "EOF"
  decode := fun stream =>
    match stream with
    | sign :: m :: rest => .ok (if sign = 0 then (m : Int) else -(m : Int), rest)
    | _ => .error "EOF"

/-- A storage layer in which no call fails, holding the given lines as its input file. -/
def okFS (lines : List String) : FileSystemInterface String where
  openRead := fun _ => .ok lines
  openWrite := fun _ => none
  writer := fun _ => none
  write := fun _ _ => none
  flush := fun _ => none
  closeWriter := fun _ => none
  closeFile := fun _ => none
  openChunk := fun _ => none
  rawReader := fun _ => none

/-- The parameters `IntSortParams` of the tests over a storage that never
fails and holds the given input lines. -/
def IntSortParams (lines : List String) : SortParams Int String where
  Less := IntLess
  LineConvert := ParseInt
  Lines := []
  FSInterface := okFS lines
  codec := intCodec

/-! ## Vocabulary of the statements -/

/-- The comparator never reports an error; `lt` is its verdict. -/
def NeverFails {ρ ε : Type} (less : ρ → Option ρ → Except ε Bool) (lt : ρ → Option ρ → Bool) :
    Prop :=
  ∀ x y, less x y = .ok (lt x y)

/-- The verdicts on records form a strict weak order. -/
structure StrictWeakOrder {ρ : Type} (lt : ρ → Option ρ → Bool) : Prop where
  irrefl : ∀ a, lt a (some a) = false
  trans : ∀ a b c, lt a (some b) = true → lt b (some c) = true → lt a (some c) = true
  negTrans : ∀ a b c, lt a (some c) = true → lt a (some b) = true ∨ lt b (some c) = true

/-- Non-decreasing under the comparator: no element is less than an earlier one. -/
def NonDecreasing {ρ : Type} (lt : ρ → Option ρ → Bool) (l : List ρ) : Prop :=
  l.Pairwise fun a b => lt b (some a) = false

/-- The comparator reports every record as less than the nil record. -/
def LessThanNil {ρ : Type} (lt : ρ → Option ρ → Bool) : Prop :=
  ∀ a, lt a none = true

/-- The state of the selection scan after the first `n` slots of `ls`:
`min` is the content of slot `min_idx`; it is nil only if the slots seen are
all nil; under a strict weak order no record seen is less than `min`, and
`min` is less than every record in a slot before `min_idx`. -/
def ScanInv {ρ : Type} (lt : ρ → Option ρ → Bool) (ls : List (Option ρ)) (n : Nat)
    (min : Option ρ) (min_idx : Nat) : Prop :=
  ls[min_idx]?.join = min ∧
  (min = none → ∀ j, j < n → ls[j]?.join = none) ∧
  (StrictWeakOrder lt → ∀ m, min = some m →
    (∀ j y, j < n → ls[j]? = some (some y) → lt y (some m) = false) ∧
    (∀ j y, j < min_idx → ls[j]? = some (some y) → lt m (some y) = true))

/-- What is left of every chunk, seen from the coordinator: the record held
in the frontier slot, if any, followed by the records still in the channel. -/
def views {ρ : Type} (loglines : List (Option ρ)) (channels : List (Chan ρ)) : List (List ρ) :=
  List.zipWith (fun slot channel => slot.toList ++ channel.items) loglines channels

/-- The verdict of `IntLess`, which never reports an error. -/
def intLt (l : Int) (s : Option Int) : Bool :=
  match s with
  | some o => decide (l < o)
  | none => true

/-- A frontier whose first slot is empty and which holds the record 1 twice. -/
def exampleFrontier : List (Option Int) := [none, some 3, some 1, some 1]

/-- The codec encodes every count and every record: `encInt` and `enc` are its outputs. -/
def MarshalOk {ρ ε : Type} (codec : Codec ρ ε) (encInt : Int → Bytes) (enc : ρ → Bytes) : Prop :=
  (∀ n, codec.marshalInt n = .ok (encInt n)) ∧ ∀ r, codec.marshal (some r) = .ok (enc r)

/-- No call the splitter makes to write a chunk fails. -/
def WritesOk {ε : Type} (fs : FileSystemInterface ε) : Prop :=
  (∀ p, fs.openWrite p = none) ∧ (∀ p, fs.writer p = none) ∧ (∀ p k, fs.write p k = none) ∧
    (∀ p, fs.flush p = none) ∧ (∀ p, fs.closeWriter p = none) ∧ ∀ p, fs.closeFile p = none

/-- The layout of a chunk file: the encoded count, then the encoded records. -/
def chunkFile {ρ : Type} (encInt : Int → Bytes) (enc : ρ → Bytes) (records : List ρ) : Bytes :=
  encInt records.length ++ (records.map enc).flatten

/-- The chunk files of the given record lists, numbered from `idx`, with their paths. -/
def chunkFiles {ρ : Type} (file : String) (encInt : Int → Bytes) (enc : ρ → Bytes) :
    Nat → List (List ρ) → Disk
  | _, [] => []
  | idx, records :: later =>
    (chunkName file idx, chunkFile encInt enc records) :: chunkFiles file encInt enc (idx + 1) later

/-- The encodings of `intCodec`. -/
def intEncInt (n : Int) : Bytes := [n.toNat]

/-- The encoding of a record by `intCodec`. -/
def intEnc (v : Int) : Bytes := [if v < 0 then 1 else 0, v.natAbs]

/-- The total byte length of the given lines (line terminators excluded). -/
def lineBytes (lines : List String) : Int :=
  (lines.map fun line => (line.utf8ByteSize : Int)).sum

/-- The line is parseable: `LineConvert` returns a record. -/
def parseable {ρ : Type} (LineConvert : String → Option ρ) (line : String) : Bool :=
  (LineConvert line).isSome

/-- The successful end of a split that wrote the chunks `written`, in that
order, next to what the storage held before: the paths are returned with a nil
error and the storage holds the chunk files. -/
def splitWrote {ρ ε : Type} (file : String) (encInt : Int → Bytes) (enc : ρ → Bytes)
    (written : List (List ρ)) (disk : Disk) : SplitResult ε :=
  ⟨.returned ((chunkFiles file encInt enc 0 written).map Prod.fst) none,
    (chunkFiles file encInt enc 0 written).reverse ++ disk⟩

/-- The split loses nothing: it ends successfully, and the chunks it wrote
are, one by one, permutations of buffers whose concatenation is the sequence
of records parsed from the input lines, in input order. -/
def SplitKeepsAll {ρ ε : Type} (sort_params : SortParams ρ ε) (encInt : Int → Bytes)
    (enc : ρ → Bytes) (file : String) (bufsize : Int) (input : List String) (disk : Disk) :
    Prop :=
  ∃ buffers written : List (List ρ),
    buffers.flatten = input.filterMap sort_params.LineConvert ∧
    List.Forall₂ (fun buffer w => w.Perm buffer) buffers written ∧
    ExternalSort file bufsize sort_params disk = splitWrote file encInt enc written disk

/-- A storage layer holding the given input lines in which opening the path
`bad` for writing fails and every other call succeeds. -/
def failOpenFS (lines : List String) (bad : String) : FileSystemInterface String :=
  { okFS lines with openWrite := fun p => if p = bad then some "open failed" else none }

/-- A storage layer in which obtaining the writer of the path `bad` fails. -/
def failWriterFS (lines : List String) (bad : String) : FileSystemInterface String :=
  { okFS lines with writer := fun p => if p = bad then some "writer failed" else none }

/-- A storage layer in which the `k0`-th `Write` on the path `bad` fails. -/
def failWriteFS (lines : List String) (bad : String) (k0 : Nat) : FileSystemInterface String :=
  { okFS lines with
    write := fun p k => if p = bad ∧ k = k0 then some "write failed" else none }

/-- The parameters of the tests over a given storage layer. -/
def IntSortParamsOn (fs : FileSystemInterface String) : SortParams Int String where
  Less := IntLess
  LineConvert := ParseInt
  Lines := []
  FSInterface := fs
  codec := intCodec

/-- Records of two concrete types: the `*Int` of the tests and a record of
another type. -/
inductive Mixed where
  | int (v : Int) : Mixed
  | other (v : Nat) : Mixed
  deriving DecidableEq, Repr

/-- A comparator in the manner of `Int.Less` of the tests: it reports an
error when its argument is of another concrete type than its receiver
("Failed to convert from SortInterface"), and a record as less than nil. -/
def MixedLess (l : Mixed) (s : Option Mixed) : Except String Bool :=
  match l, s with
  | _, none => .ok true
  | .int a, some (.int b) => .ok (decide (a < b))
  | .other a, some (.other b) => .ok (decide (a < b))
  | _, some _ => .error "Failed to convert"

/-- A codec for `Mixed` records: a count is one byte; a record is a tag byte
followed by a sign byte and a magnitude byte, or by one byte. -/
def mixedCodec : Codec Mixed String where
  marshalInt := fun n => .ok [n.toNat]
  marshal := fun r =>
    match r with
    | some (.int v) => .ok [0, if v < 0 then 1 else 0, v.natAbs]
    | some (.other v) => .ok [1, v]
    | none => .error "nil"
  decodeInt := fun stream =>
    match stream with
    | n :: rest => .ok ((n : Int), rest)
    | [] => .error "EOF"
  decode := fun stream =>
    match stream with
    | 0 :: sign :: m :: rest => .ok (.int (if sign = 0 then (m : Int) else -(m : Int)), rest)
    | 1 :: v :: rest => .ok (.other v, rest)
    | _ => .error "EOF"

/-- Sort parameters for `Mixed` records over a storage that never fails. -/
def mixedParams : SortParams Mixed String where
  Less := MixedLess
  LineConvert := fun _ => none
  Lines := []
  FSInterface := okFS []
  codec := mixedCodec

/-- A chunk file declaring `n` records and holding `records`. -/
def declaredFile {ρ : Type} (encInt : Int → Bytes) (enc : ρ → Bytes) (n : Nat)
    (records : List ρ) : Bytes :=
  encInt n ++ (records.map enc).flatten

/-- The codec round-trips on a stream: decoding what was encoded returns the
value and the rest of the stream; decoding the empty stream fails. -/
def DecodeOk {ρ ε : Type} (codec : Codec ρ ε) (encInt : Int → Bytes) (enc : ρ → Bytes) : Prop :=
  (∀ (n : Nat) (rest : Bytes), codec.decodeInt (encInt n ++ rest) = .ok ((n : Int), rest)) ∧
    (∀ (r : ρ) (rest : Bytes), codec.decode (enc r ++ rest) = .ok (r, rest)) ∧
    ∃ e, codec.decode [] = .error e

/-- The number written by a list of decimal digit characters, continuing from `acc`. -/
def digitsValue (cs : List Char) (acc : Nat) : Nat :=
  cs.foldl (fun a c => 10 * a + (c.toNat - 48)) acc

/-- The verdicts on records form a strict total order. -/
structure StrictTotalOrder {ρ : Type} (lt : ρ → Option ρ → Bool) : Prop where
  irrefl : ∀ a, lt a (some a) = false
  trans : ∀ a b c, lt a (some b) = true → lt b (some c) = true → lt a (some c) = true
  total : ∀ a b, a ≠ b → lt a (some b) = true ∨ lt b (some a) = true

/-- No call the merge makes to open a chunk fails: the storage returns what was written. -/
def ReadsOk {ε : Type} (fs : FileSystemInterface ε) : Prop :=
  (∀ p, fs.openChunk p = none) ∧ ∀ p, fs.rawReader p = none

/-- A parser for `Mixed` records: a decimal numeral is an `Int`, any other
non-empty line is a record of the other type. -/
def ParseMixed (line : String) : Option Mixed :=
  match ParseInt line with
  | some v => some (.int v)
  | none => if line.data = [] then none else some (.other line.data.length)

/-- Sort parameters for `Mixed` records parsed by `ParseMixed` from the given input lines. -/
def mixedParamsOn (lines : List String) : SortParams Mixed String where
  Less := MixedLess
  LineConvert := ParseMixed
  Lines := []
  FSInterface := okFS lines
  codec := mixedCodec

/-- A comparator on `Int` records that never reports an error and compares
two records as `IntLess` does, but reports no record as less than nil. -/
def IntLessNilFalse (l : Int) (s : Option Int) : Except String Bool :=
  match s with
  | some o => .ok (decide (l < o))
  | none => .ok false

/-! ## The merge as interleaved steps of the workers and the coordinator -/

/-- The capacity of every per-chunk channel: `make(chan SortInterface, 1000)` (line 324). -/
def channelCapacity : Nat := 1000

/-- One chunk of a running merge: the records its worker has not decoded yet,
the record the worker has decoded and is sending (`channel <- s`), the buffer
of its channel, and the record of the chunk the coordinator holds: the one in
the frontier slot `loglines[idx]`, or in `next_line` until the send on
`outChan` completes. -/
structure Lane (ρ : Type) where
  undecoded : List ρ
  pending : Option ρ
  queue : List ρ
  slot : Option ρ
  deriving DecidableEq, Repr

/-- The steps on one chunk. The worker decodes the next record when it holds
none (lines 224-227); its send completes when the buffer of the channel is not
full (line 228); the coordinator receives when it holds no record of the chunk
(lines 246-251); the coordinator hands the record it holds to the output
(lines 284-298). Which slot the selection picks, and the order of the steps
of different chunks, are left open: every run of the code is a run of these
steps. -/
inductive LaneStep {ρ : Type} : Lane ρ → Lane ρ → Prop where
  | decode (r : ρ) (rest queue : List ρ) (slot : Option ρ) :
      LaneStep ⟨r :: rest, none, queue, slot⟩ ⟨rest, some r, queue, slot⟩
  | send (undecoded : List ρ) (r : ρ) (queue : List ρ) (slot : Option ρ)
      (hroom : queue.length < channelCapacity) :
      LaneStep ⟨undecoded, some r, queue, slot⟩ ⟨undecoded, none, queue ++ [r], slot⟩
  | receive (undecoded : List ρ) (pending : Option ρ) (r : ρ) (queue : List ρ) :
      LaneStep ⟨undecoded, pending, r :: queue, none⟩ ⟨undecoded, pending, queue, some r⟩
  | emit (undecoded : List ρ) (pending : Option ρ) (queue : List ρ) (r : ρ) :
      LaneStep ⟨undecoded, pending, queue, some r⟩ ⟨undecoded, pending, queue, none⟩

/-- One step of the merge: a step on one of its chunks, in any interleaving. -/
inductive MergeStep {ρ : Type} : List (Lane ρ) → List (Lane ρ) → Prop where
  | lane (lanes : List (Lane ρ)) (i : Nat) (l l' : Lane ρ) (hi : lanes[i]? = some l)
      (hstep : LaneStep l l') : MergeStep lanes (lanes.set i l')

/-- The start of a merge over the given chunks: nothing decoded, queues and frontier empty. -/
def startLanes {ρ : Type} (chunks : List (List ρ)) : List (Lane ρ) :=
  chunks.map fun c => ⟨c, none, [], none⟩

/-- The states a merge over the given chunks passes through. -/
inductive MergeReaches {ρ : Type} (chunks : List (List ρ)) : List (Lane ρ) → Prop where
  | start : MergeReaches chunks (startLanes chunks)
  | step (lanes lanes' : List (Lane ρ)) (h : MergeReaches chunks lanes)
      (hstep : MergeStep lanes lanes') : MergeReaches chunks lanes'

/-- The decoded records of a chunk not yet handed to the output. -/
def Lane.held {ρ : Type} (l : Lane ρ) : Nat :=
  l.pending.toList.length + l.queue.length + l.slot.toList.length

/-- The bytes of a chunk file as a round of the split writes them from a
non-empty buffer: the encoded count of the records, then what the writing loop
adds for them. -/
def NonEmptyChunk {ρ ε : Type} (sort_params : SortParams ρ ε) (bytes : Bytes) : Prop :=
  ∃ (Lines : SortCollection ρ) (path : String) (b : Bytes), 1 ≤ SortCollection.Len Lines ∧
    sort_params.codec.marshalInt (SortCollection.Len Lines) = .ok b ∧
    writeObjects sort_params.codec sort_params.FSInterface path Lines 1 b = .done bytes

/-- The states the coordinator passes through, round by round, from the
frontier `ls0` and the channels `cs0`, with the records it has emitted so far:
a round fills the frontier, finds something left, selects without a comparator
error, and emits the record of the selected slot, which it clears. -/
inductive CoordReaches {ρ ε : Type} (less : ρ → Option ρ → Except ε Bool)
    (ls0 : List (Option ρ)) (cs0 : List (Chan ρ)) :
    List ρ → List (Option ρ) → List (Chan ρ) → Prop where
  | start : CoordReaches less ls0 cs0 [] ls0 cs0
  | round (pre : List ρ) (ls ls' : List (Option ρ)) (cs cs' : List (Chan ρ))
      (min : Option ρ) (i : Nat) (x : ρ) (h : CoordReaches less ls0 cs0 pre ls cs)
      (hfill : fill ls cs = .filled ls' cs' true) (hsel : selectMin less ls' = .ok (min, i))
      (hx : ls'[i]?.join = some x) :
      CoordReaches less ls0 cs0 (pre ++ [x]) (ls'.set i none) cs'

/-- How the process ends when the comparator fails in the selection against
`min`: `os.Exit(-1)` after printing the two records, or the nil dereference of
`min.String()` when `min` is nil. -/
def failureEnd {ρ ε : Type} (e : ε) (min : Option ρ) : MergeEnd ε :=
  match min with
  | some _ => .exit e
  | none => .nilDeref

/-- A comparator on `Int` records that reports an error when its argument is nil. -/
def IntLessErrOnNil (l : Int) (s : Option Int) : Except String Bool :=
  match s with
  | some o => .ok (decide (l < o))
  | none => .error "other side is nil"

/-- Sort parameters for `Int` records compared by `IntLessErrOnNil`. -/
def errOnNilParams : SortParams Int String where
  Less := IntLessErrOnNil
  LineConvert := ParseInt
  Lines := []
  FSInterface := okFS []
  codec := intCodec

/-- The buffers the outer loop of `ExternalSort` (lines 90-116) hands to the
flush, round by round: each round reads a buffer from the lines still in the
channel, and the loop ends at the first empty buffer. The flush does not touch
the channel, so this is the outer loop without lines 118-169. -/
def flushedBuffers {ρ : Type} (LineConvert : String → Option ρ) (bufsize : Int) :
    Nat → List String → List (SortCollection ρ)
  | 0, _ => []
  | fuel + 1, input =>
    if SortCollection.Len (readLines LineConvert bufsize input [] 0).1 = 0 then []
    else
      (readLines LineConvert bufsize input [] 0).1 ::
        flushedBuffers LineConvert bufsize fuel (readLines LineConvert bufsize input [] 0).2

/-! ## The sort -/

theorem StrictWeakOrder.asymm {ρ : Type} {lt : ρ → Option ρ → Bool} (h : StrictWeakOrder lt)
    {a b : ρ} (hab : lt a (some b) = true) : lt b (some a) = false := by
  cases hba : lt b (some a) with
  | false => rfl
  | true => have := h.trans a b a hab hba; rw [h.irrefl] at this; exact absurd this (by simp)

theorem StrictWeakOrder.le_trans {ρ : Type} {lt : ρ → Option ρ → Bool} (h : StrictWeakOrder lt)
    {a b c : ρ} (hab : lt b (some a) = false) (hbc : lt c (some b) = false) :
    lt c (some a) = false := by
  cases hca : lt c (some a) with
  | false => rfl
  | true =>
    rcases h.negTrans c b a hca with h1 | h1
    · rw [hbc] at h1; exact absurd h1 (by simp)
    · rw [hab] at h1; exact absurd h1 (by simp)

theorem set_set_adjacent {α : Type} (A : List α) (a b : α) (B : List α) :
    ((A ++ a :: b :: B).set (A.length + 1) a).set A.length b = A ++ b :: a :: B := by
  induction A with
  | nil => simp
  | cons c A ih => simp [ih]

theorem getElem?_adjacent_left {α : Type} (A : List α) (a b : α) (B : List α) :
    (A ++ a :: b :: B)[A.length]? = some a := by
  induction A with
  | nil => simp
  | cons c A ih => simpa using ih

theorem getElem?_adjacent_right {α : Type} (A : List α) (a b : α) (B : List α) :
    (A ++ a :: b :: B)[A.length + 1]? = some b := by
  induction A with
  | nil => simp
  | cons c A ih => simpa using ih

theorem Less_adjacent {ρ ε : Type} (less : ρ → Option ρ → Except ε Bool)
    (lt : ρ → Option ρ → Bool) (hnf : NeverFails less lt) (A : List ρ) (y x : ρ) (B : List ρ) :
    SortCollection.Less less ((A ++ y :: x :: B).map some) (A.length + 1) A.length
      = .ok (lt x (some y)) := by
  have h1 := getElem?_adjacent_left (A.map some) (some y) (some x) (B.map some)
  have h2 := getElem?_adjacent_right (A.map some) (some y) (some x) (B.map some)
  simp only [List.length_map] at h1 h2
  simp only [SortCollection.Less, List.map_append, List.map_cons, h1, h2, hnf x (some y)]

theorem Swap_adjacent {ρ ε : Type} (A : List ρ) (y x : ρ) (B : List ρ) :
    (SortCollection.Swap ((A ++ y :: x :: B).map some) (A.length + 1) A.length :
        Except (Panic ε) (SortCollection ρ))
      = .ok ((A ++ x :: y :: B).map some) := by
  have h1 := getElem?_adjacent_left (A.map some) (some y) (some x) (B.map some)
  have h2 := getElem?_adjacent_right (A.map some) (some y) (some x) (B.map some)
  have h := set_set_adjacent (A.map some) (some y) (some x) (B.map some)
  simp only [List.length_map] at h h1 h2
  simp only [SortCollection.Swap, List.map_append, List.map_cons, h1, h2, h]

theorem insertionInner_spec {ρ ε : Type} (less : ρ → Option ρ → Except ε Bool)
    (lt : ρ → Option ρ → Bool) (hnf : NeverFails less lt)
    (P : List ρ) : ∀ (x : ρ) (R : List ρ),
    ∃ P' : List ρ, insertionInner less P.length ((P ++ x :: R).map some)
        = .ok ((P' ++ R).map some) ∧ P'.Perm (P ++ [x]) ∧
        (StrictWeakOrder lt → NonDecreasing lt P → NonDecreasing lt P') := by
  induction P using List.reverseRecOn with
  | nil => intro x R; exact ⟨[x], by simp [insertionInner], by simp, by simp [NonDecreasing]⟩
  | append_singleton P0 y ih =>
    intro x R
    have hlen : (P0 ++ [y]).length = P0.length + 1 := by simp
    have hl : P0 ++ [y] ++ x :: R = P0 ++ y :: x :: R := by simp
    rw [hlen, hl, insertionInner, Less_adjacent less lt hnf]
    cases hxy : lt x (some y) with
    | false =>
      refine ⟨P0 ++ [y, x], by simp, by simp, ?_⟩
      intro hswo hs
      have : P0 ++ [y, x] = (P0 ++ [y]) ++ [x] := by simp
      rw [this]
      unfold NonDecreasing at hs ⊢
      rw [List.pairwise_append]
      refine ⟨hs, by simp, ?_⟩
      intro a ha b hb
      simp only [List.mem_singleton] at hb
      subst hb
      rw [List.pairwise_append] at hs
      simp only [List.mem_append, List.mem_singleton] at ha
      rcases ha with ha | ha
      · exact hswo.le_trans (hs.2.2 a ha y (by simp)) hxy
      · subst ha; exact hxy
    | true =>
      simp only []
      rw [Swap_adjacent]
      obtain ⟨P0', h1, h2, h3⟩ := ih x (y :: R)
      simp only []
      rw [h1]
      refine ⟨P0' ++ [y], by simp, ?_, ?_⟩
      · refine (h2.append_right [y]).trans ?_
        simp only [List.append_assoc, List.singleton_append]
        exact List.Perm.append_left P0 (List.Perm.swap y x [])
      · intro hswo hs
        unfold NonDecreasing at hs ⊢
        rw [List.pairwise_append] at hs ⊢
        refine ⟨h3 hswo hs.1, by simp, ?_⟩
        intro a ha b hb
        simp only [List.mem_singleton] at hb
        subst hb
        have ha' := h2.subset ha
        simp only [List.mem_append, List.mem_singleton] at ha'
        rcases ha' with ha' | ha'
        · exact hs.2.2 a ha' b (by simp)
        · subst ha'; exact hswo.asymm hxy

theorem insertionOuter_spec {ρ ε : Type} (less : ρ → Option ρ → Except ε Bool)
    (lt : ρ → Option ρ → Bool) (hnf : NeverFails less lt)
    (Q : List ρ) : ∀ P : List ρ,
    ∃ S : List ρ, insertionOuter less Q.length P.length ((P ++ Q).map some)
        = .ok (S.map some) ∧ S.Perm (P ++ Q) ∧
        (StrictWeakOrder lt → NonDecreasing lt P → NonDecreasing lt S) := by
  induction Q with
  | nil => intro P; exact ⟨P, by simp [insertionOuter], by simp, fun _ hP => hP⟩
  | cons x Q ih =>
    intro P
    obtain ⟨P', h1, h2, h3⟩ := insertionInner_spec less lt hnf P x Q
    obtain ⟨S, h4, h5, h6⟩ := ih P'
    have hlen : P'.length = P.length + 1 := by simpa using h2.length_eq
    refine ⟨S, ?_, ?_, fun hswo hP => h6 hswo (h3 hswo hP)⟩
    · simp only [List.length_cons, insertionOuter, h1]
      rw [← hlen]; exact h4
    · refine h5.trans ?_
      refine (h2.append_right Q).trans ?_
      simp

theorem sort_Sort_spec {ρ ε : Type} (less : ρ → Option ρ → Except ε Bool)
    (lt : ρ → Option ρ → Bool) (hnf : NeverFails less lt) (l : List ρ) :
    ∃ S : List ρ, sort_Sort less (l.map some) = .ok (S.map some) ∧ S.Perm l ∧
      (StrictWeakOrder lt → NonDecreasing lt S) := by
  cases l with
  | nil => exact ⟨[], by simp [sort_Sort, SortCollection.Len, insertionOuter], by simp,
      by simp [NonDecreasing]⟩
  | cons x Q =>
    obtain ⟨S, h1, h2, h3⟩ := insertionOuter_spec less lt hnf Q [x]
    refine ⟨S, ?_, by simpa using h2, fun hswo => h3 hswo (by simp [NonDecreasing])⟩
    simpa [sort_Sort, SortCollection.Len] using h1

theorem readLines_spec {ρ : Type} (LineConvert : String → Option ρ) (bufsize : Int)
    (input : List String) : ∀ (Lines : List ρ) (bytes_read : Int),
    ∃ taken : List String,
      input = taken ++ (readLines LineConvert bufsize input (Lines.map some) bytes_read).2 ∧
      (readLines LineConvert bufsize input (Lines.map some) bytes_read).1
        = (Lines ++ taken.filterMap LineConvert).map some := by
  induction input with
  | nil => intro Lines n; exact ⟨[], by simp [readLines], by simp [readLines]⟩
  | cons line rest ih =>
    intro Lines n
    cases hp : LineConvert line with
    | none =>
      simp only [readLines, bufferLine, hp]
      split
      · exact ⟨[line], by simp, by simp [hp]⟩
      · obtain ⟨taken, h1, h2⟩ := ih Lines n
        refine ⟨line :: taken, by simpa using h1, ?_⟩
        rw [h2]; simp [hp]
    | some object =>
      simp only [readLines, bufferLine, hp]
      have hm : List.map some Lines ++ [some object] = (Lines ++ [object]).map some := by simp
      rw [hm]
      split
      · exact ⟨[line], by simp, by simp [hp]⟩
      · obtain ⟨taken, h1, h2⟩ := ih (Lines ++ [object]) (n + line.utf8ByteSize)
        refine ⟨line :: taken, by simpa using h1, ?_⟩
        rw [h2]; simp [hp]

theorem scanMin_spec {ρ ε : Type} (less : ρ → Option ρ → Except ε Bool)
    (lt : ρ → Option ρ → Bool) (hnf : NeverFails less lt) (hnil : LessThanNil lt)
    (ls : List (Option ρ)) (rest : List (Option ρ)) :
    ∀ (pre : List (Option ρ)) (min : Option ρ) (min_idx : Nat), ls = pre ++ rest →
      ScanInv lt ls pre.length min min_idx →
      ∃ min' i', scanMin less rest pre.length min min_idx = .ok (min', i') ∧
        ScanInv lt ls ls.length min' i' := by
  induction rest with
  | nil =>
    intro pre min i hls hinv
    refine ⟨min, i, by simp [scanMin], ?_⟩
    have : ls.length = pre.length := by simp [hls]
    rw [this]; exact hinv
  | cons slot rest ih =>
    intro pre min i hls hinv
    have hls' : ls = (pre ++ [slot]) ++ rest := by simp [hls]
    have hn : ls[pre.length]? = some slot := by
      rw [hls, List.getElem?_append_right (Nat.le_refl _)]; simp
    have hlen : (pre ++ [slot]).length = pre.length + 1 := by simp
    obtain ⟨h1, h2, h3⟩ := hinv
    cases slot with
    | none =>
      have := ih (pre ++ [none]) min i hls' (by
        rw [hlen]
        refine ⟨h1, ?_, ?_⟩
        · intro hmin j hj
          rcases Nat.lt_succ_iff_lt_or_eq.mp hj with hj | hj
          · exact h2 hmin j hj
          · subst hj; simp [hn]
        · intro hswo m hm
          refine ⟨?_, (h3 hswo m hm).2⟩
          intro j y hj hy
          rcases Nat.lt_succ_iff_lt_or_eq.mp hj with hj | hj
          · exact (h3 hswo m hm).1 j y hj hy
          · subst hj; rw [hn] at hy; simp at hy)
      rw [hlen] at this
      simpa [scanMin] using this
    | some x =>
      cases hlt : lt x min with
      | true =>
        have := ih (pre ++ [some x]) (some x) pre.length hls' (by
          rw [hlen]
          refine ⟨by simp [hn], by simp, ?_⟩
          intro hswo m hm
          simp only [Option.some.injEq] at hm
          subst hm
          refine ⟨?_, ?_⟩
          · intro j y hj hy
            rcases Nat.lt_succ_iff_lt_or_eq.mp hj with hj | hj
            · cases min with
              | none => have := h2 rfl j hj; simp [hy] at this
              | some m0 =>
                have hym := (h3 hswo m0 rfl).1 j y hj hy
                cases hyx : lt y (some x) with
                | false => rfl
                | true => rw [hswo.trans y x m0 hyx hlt] at hym; exact absurd hym (by simp)
            · subst hj; rw [hn] at hy
              simp only [Option.some.injEq] at hy
              subst hy; exact hswo.irrefl _
          · intro j y hj hy
            cases min with
            | none => have := h2 rfl j hj; simp [hy] at this
            | some m0 =>
              have hym := (h3 hswo m0 rfl).1 j y hj hy
              rcases hswo.negTrans x y m0 hlt with h | h
              · exact h
              · rw [hym] at h; exact absurd h (by simp))
        rw [hlen] at this
        simpa [scanMin, hnf x min, hlt] using this
      | false =>
        have := ih (pre ++ [some x]) min i hls' (by
          rw [hlen]
          refine ⟨h1, ?_, ?_⟩
          · intro hmin
            rw [hmin, hnil x] at hlt
            exact absurd hlt (by simp)
          · intro hswo m hm
            refine ⟨?_, (h3 hswo m hm).2⟩
            intro j y hj hy
            rcases Nat.lt_succ_iff_lt_or_eq.mp hj with hj | hj
            · exact (h3 hswo m hm).1 j y hj hy
            · subst hj; rw [hn] at hy
              simp only [Option.some.injEq] at hy
              subst hy; rw [← hm]; exact hlt)
        rw [hlen] at this
        simpa [scanMin, hnf x min, hlt] using this

theorem selectMin_spec {ρ ε : Type} (less : ρ → Option ρ → Except ε Bool)
    (lt : ρ → Option ρ → Bool) (hnf : NeverFails less lt) (hnil : LessThanNil lt)
    (ls : List (Option ρ)) :
    ∃ min i, selectMin less ls = .ok (min, i) ∧ ScanInv lt ls ls.length min i := by
  have := scanMin_spec less lt hnf hnil ls ls [] ls.head?.join 0 (by simp) (by
    refine ⟨?_, by simp, ?_⟩
    · cases ls <;> simp
    · intro _ m _
      exact ⟨by simp, by simp⟩)
  simpa [selectMin] using this

theorem fill_closed {ρ : Type} (ls : List (Option ρ)) :
    ∀ cs : List (Chan ρ), ls.length = cs.length → (∀ c ∈ cs, c.fin = ChanEnd.closed) →
      fill ls cs = .filled ((views ls cs).map List.head?)
        ((views ls cs).map fun v => ⟨v.tail, .closed⟩)
        ((views ls cs).any fun v => !v.isEmpty) := by
  induction ls with
  | nil => intro cs _ _; simp [fill, views]
  | cons slot ls ih =>
    intro cs hlen hcl
    cases cs with
    | nil => simp at hlen
    | cons c cs =>
      have hc : c.fin = ChanEnd.closed := hcl c (by simp)
      have ih' := ih cs (by simpa using hlen) (fun c' hc' => hcl c' (by simp [hc']))
      obtain ⟨items, fin⟩ := c
      simp only at hc
      subst hc
      cases slot with
      | some x => simp [fill, ih', views]
      | none =>
        cases items with
        | nil => simp [fill, ih', views]
        | cons x later => simp [fill, ih', views]

theorem views_heads {ρ : Type} (V : List (List ρ)) :
    views (V.map List.head?) (V.map fun v => (⟨v.tail, .closed⟩ : Chan ρ)) = V := by
  induction V with
  | nil => simp [views]
  | cons v V ih =>
    simp only [views] at ih
    cases v <;> simp [views, ih]

theorem views_set {ρ : Type} (V : List (List ρ)) : ∀ (i : Nat) (m : ρ) (t : List ρ),
    V[i]? = some (m :: t) →
    views ((V.map List.head?).set i none) (V.map fun v => (⟨v.tail, .closed⟩ : Chan ρ))
      = V.set i t := by
  induction V with
  | nil => intro i m t h; simp at h
  | cons v V ih =>
    intro i m t h
    cases i with
    | zero =>
      simp only [List.getElem?_cons_zero, Option.some.injEq] at h
      subst h
      have := views_heads V
      simp only [views] at this
      simp [views, this]
    | succ i =>
      simp only [List.getElem?_cons_succ] at h
      have := ih i m t h
      simp only [views] at this
      cases v <;> simp [views, this]

theorem flatten_set_perm {ρ : Type} (V : List (List ρ)) : ∀ (i : Nat) (m : ρ) (t : List ρ),
    V[i]? = some (m :: t) → (m :: (V.set i t).flatten).Perm V.flatten := by
  induction V with
  | nil => intro i m t h; simp at h
  | cons v V ih =>
    intro i m t h
    cases i with
    | zero =>
      simp only [List.getElem?_cons_zero, Option.some.injEq] at h
      subst h
      simp
    | succ i =>
      simp only [List.getElem?_cons_succ] at h
      have := ih i m t h
      simp only [List.set_cons_succ, List.flatten_cons]
      exact (List.perm_middle.symm).trans (List.Perm.append_left v this)

theorem any_nonempty_of_flatten {ρ : Type} (V : List (List ρ)) :
    (V.any fun v => !v.isEmpty) = false → V.flatten = [] := by
  induction V with
  | nil => simp
  | cons v V ih =>
    intro h
    simp only [List.any_cons, Bool.or_eq_false_iff] at h
    cases v with
    | nil => simpa using ih h.2
    | cons a v => simp at h

theorem selected_is_head {ρ : Type} (lt : ρ → Option ρ → Bool) (V : List (List ρ))
    (min : Option ρ) (i : Nat) (hinv : ScanInv lt (V.map List.head?) (V.map List.head?).length min i)
    (hany : (V.any fun v => !v.isEmpty) = true) :
    ∃ m t, min = some m ∧ V[i]? = some (m :: t) := by
  obtain ⟨h1, h2, _⟩ := hinv
  cases min with
  | none =>
    exfalso
    have hall := h2 rfl
    simp only [List.any_eq_true] at hany
    obtain ⟨v, hv, hne⟩ := hany
    obtain ⟨j, hj, hjv⟩ := List.getElem_of_mem hv
    have := hall j (by simpa using hj)
    simp only [List.getElem?_map, List.getElem?_eq_getElem hj, hjv, Option.map_some',
      Option.join] at this
    cases v with
    | nil => simp at hne
    | cons a v => simp at this
  | some m =>
    refine ⟨m, ?_⟩
    simp only [List.getElem?_map] at h1
    cases hv : V[i]? with
    | none => simp [hv] at h1
    | some v =>
      cases v with
      | nil => simp [hv] at h1
      | cons a t =>
        simp [hv] at h1
        subst h1
        exact ⟨t, rfl, rfl⟩

theorem consumerLoop_closed {ρ ε : Type} (less : ρ → Option ρ → Except ε Bool)
    (lt : ρ → Option ρ → Bool) (hnf : NeverFails less lt) (hnil : LessThanNil lt)
    (fuel : Nat) : ∀ (V : List (List ρ)), V.flatten.length < fuel →
    ∀ (ls : List (Option ρ)) (cs : List (Chan ρ)), ls.length = cs.length →
      (∀ c ∈ cs, c.fin = ChanEnd.closed) → views ls cs = V →
      ∃ out, consumerLoop less fuel ls cs = ⟨out, .done⟩ ∧ out.Perm V.flatten ∧
        (StrictWeakOrder lt → (∀ v ∈ V, NonDecreasing lt v) → NonDecreasing lt out) := by
  induction fuel with
  | zero => intro V h; simp at h
  | succ fuel ih =>
    intro V hfuel ls cs hlen hcl hV
    rw [consumerLoop, fill_closed ls cs hlen hcl, hV]
    cases hany : (V.any fun v => !v.isEmpty) with
    | false =>
      refine ⟨[], rfl, ?_, fun _ _ => by simp [NonDecreasing]⟩
      rw [any_nonempty_of_flatten V hany]
    | true =>
      obtain ⟨min, i, hsel, hinv⟩ := selectMin_spec less lt hnf hnil (V.map List.head?)
      obtain ⟨m, t, hmin, hVi⟩ := selected_is_head lt V min i hinv hany
      subst hmin
      have hperm := flatten_set_perm V i m t hVi
      have hget : (V.map List.head?)[i]?.join = some m := by
        simp [List.getElem?_map, hVi]
      obtain ⟨out, hout, hp, hs⟩ := ih (V.set i t)
        (by have := hperm.length_eq; simp only [List.length_cons] at this; omega)
        ((V.map List.head?).set i none) (V.map fun v => ⟨v.tail, .closed⟩)
        (by simp) (by simp) (views_set V i m t hVi)
      simp only [hsel, hget, hout]
      refine ⟨m :: out, rfl, (List.Perm.cons m hp).trans hperm, ?_⟩
      intro hswo hsorted
      have hsorted' : ∀ v ∈ V.set i t, NonDecreasing lt v := by
        intro v hv
        rcases List.mem_or_eq_of_mem_set hv with hv | hv
        · exact hsorted v hv
        · subst hv
          have := hsorted (m :: v) (List.getElem?_mem hVi)
          exact (List.pairwise_cons.mp this).2
      unfold NonDecreasing
      rw [List.pairwise_cons]
      refine ⟨?_, hs hswo hsorted'⟩
      intro y hy
      have hy' : y ∈ V.flatten := hperm.subset (List.mem_cons_of_mem m (hp.subset hy))
      obtain ⟨v, hv, hyv⟩ := List.mem_flatten.mp hy'
      obtain ⟨j, hj, hjv⟩ := List.getElem_of_mem hv
      cases v with
      | nil => simp at hyv
      | cons h tl =>
        have hhead : (V.map List.head?)[j]? = some (some h) := by
          simp [List.getElem?_map, List.getElem?_eq_getElem hj, hjv]
        have hhm := ((hinv.2.2 hswo m rfl).1 j h (by simpa using hj) hhead)
        rcases List.mem_cons.mp hyv with hyh | hyt
        · subst hyh; exact hhm
        · have := (List.pairwise_cons.mp (hsorted (h :: tl) hv)).1 y hyt
          exact hswo.le_trans hhm this

theorem IntLess_neverFails : NeverFails IntLess intLt := by
  intro x y; cases y <;> rfl

theorem intLt_strictWeakOrder : StrictWeakOrder intLt where
  irrefl := by intro a; simp [intLt]
  trans := by intro a b c; simp only [intLt, decide_eq_true_eq]; omega
  negTrans := by intro a b c; simp only [intLt, decide_eq_true_eq]; omega

theorem intLt_lessThanNil : LessThanNil intLt := by
  intro a; rfl

theorem views_replicate {ρ : Type} (chunks : List (List ρ)) :
    views (List.replicate (chunks.map fun c => (⟨c, .closed⟩ : Chan ρ)).length none)
      (chunks.map fun c => (⟨c, .closed⟩ : Chan ρ)) = chunks := by
  induction chunks with
  | nil => simp [views]
  | cons c chunks ih =>
    simp only [views, List.length_map] at ih
    simp [views, List.replicate_succ, ih]

theorem consumer_closed {ρ ε : Type} (less : ρ → Option ρ → Except ε Bool)
    (lt : ρ → Option ρ → Bool) (hnf : NeverFails less lt) (hnil : LessThanNil lt)
    (chunks : List (List ρ)) :
    ∃ out, consumer less (chunks.map fun c => ⟨c, .closed⟩) = ⟨out, .done⟩ ∧
      out.Perm chunks.flatten ∧
      (StrictWeakOrder lt → (∀ c ∈ chunks, NonDecreasing lt c) → NonDecreasing lt out) := by
  unfold consumer
  refine consumerLoop_closed less lt hnf hnil _ chunks ?_ _ _ (by simp) (by simp)
    (views_replicate chunks)
  simp [List.length_flatten, Function.comp_def]

theorem selectMin_lowest_index {ρ ε : Type} (less : ρ → Option ρ → Except ε Bool)
    (lt : ρ → Option ρ → Bool) (hnf : NeverFails less lt) (hswo : StrictWeakOrder lt)
    (hnil : LessThanNil lt) (loglines : List (Option ρ))
    (hheld : ∃ (j : Nat) (y : ρ), loglines[j]? = some (some y)) :
    ∃ (m : ρ) (i : Nat), selectMin less loglines = .ok (some m, i) ∧ loglines[i]? = some (some m) ∧
      (∀ (j : Nat) (y : ρ), loglines[j]? = some (some y) → lt y (some m) = false) ∧
      (∀ (j : Nat) (y : ρ), j < i → loglines[j]? = some (some y) → lt m (some y) = true) ∧
      (∀ (j : Nat) (y : ρ), loglines[j]? = some (some y) → lt m (some y) = false → i ≤ j) := by
  obtain ⟨min, i, hsel, h1, h2, h3⟩ := selectMin_spec less lt hnf hnil loglines
  obtain ⟨j0, y0, hy0⟩ := hheld
  have hj0 : j0 < loglines.length := by
    by_contra hge
    rw [List.getElem?_eq_none (Nat.le_of_not_lt hge)] at hy0
    exact absurd hy0 (by simp)
  cases min with
  | none =>
    have := h2 rfl j0 hj0
    simp [hy0] at this
  | some m =>
    have hi : loglines[i]? = some (some m) := by
      cases hv : loglines[i]? with
      | none => simp [hv] at h1
      | some s => simp [hv] at h1; rw [h1]
    have hlt : ∀ j y, loglines[j]? = some (some y) → j < loglines.length := by
      intro j y hy
      by_contra hge
      rw [List.getElem?_eq_none (Nat.le_of_not_lt hge)] at hy
      exact absurd hy (by simp)
    refine ⟨m, i, hsel, hi, ?_, (h3 hswo m rfl).2, ?_⟩
    · intro j y hy
      exact (h3 hswo m rfl).1 j y (hlt j y hy) hy
    · intro j y hy hmy
      by_contra hji
      have := (h3 hswo m rfl).2 j y (Nat.lt_of_not_le hji) hy
      rw [hmy] at this
      exact absurd this (by simp)

theorem intCodec_marshalOk : MarshalOk intCodec intEncInt intEnc :=
  ⟨fun _ => rfl, fun _ => rfl⟩

theorem okFS_writesOk (lines : List String) : WritesOk (okFS lines) :=
  ⟨fun _ => rfl, fun _ => rfl, fun _ _ => rfl, fun _ => rfl, fun _ => rfl, fun _ => rfl⟩

theorem writeObjects_ok {ρ ε : Type} (codec : Codec ρ ε) (fs : FileSystemInterface ε)
    (enc : ρ → Bytes) (hm : ∀ r, codec.marshal (some r) = .ok (enc r))
    (hw : ∀ p k, fs.write p k = none) (path : String) (records : List ρ) :
    ∀ (k : Nat) (acc : Bytes), writeObjects codec fs path (records.map some) k acc
      = .done (acc ++ (records.map enc).flatten) := by
  induction records with
  | nil => intro k acc; simp [writeObjects]
  | cons r records ih =>
    intro k acc
    simp [writeObjects, hm r, hw path k, ih]

theorem lineBytes_cons (line : String) (lines : List String) :
    lineBytes (line :: lines) = line.utf8ByteSize + lineBytes lines := by
  simp [lineBytes]

theorem readLines_size {ρ : Type} (LineConvert : String → Option ρ) (bufsize : Int)
    (input : List String) : ∀ (Lines : List ρ) (bytes_read : Int),
    ∃ taken : List String,
      input = taken ++ (readLines LineConvert bufsize input (Lines.map some) bytes_read).2 ∧
      (readLines LineConvert bufsize input (Lines.map some) bytes_read).1
        = (Lines ++ taken.filterMap LineConvert).map some ∧
      (bytes_read ≤ bufsize →
        ((readLines LineConvert bufsize input (Lines.map some) bytes_read).2 = [] ∨
          bufsize < bytes_read + lineBytes (taken.filter (parseable LineConvert))) ∧
        bytes_read + lineBytes (taken.filter (parseable LineConvert)).dropLast ≤ bufsize) := by
  induction input with
  | nil =>
    intro Lines n
    exact ⟨[], by simp [readLines], by simp [readLines], fun hn => ⟨by simp [readLines],
      by simpa [lineBytes] using hn⟩⟩
  | cons line rest ih =>
    intro Lines n
    cases hp : LineConvert line with
    | none =>
      have hpl : parseable LineConvert line = false := by simp [parseable, hp]
      simp only [readLines, bufferLine, hp]
      split
      · exact ⟨[line], by simp, by simp [hp], fun hn => by omega⟩
      · obtain ⟨taken, h1, h2, h3⟩ := ih Lines n
        refine ⟨line :: taken, by simpa using h1, ?_, ?_⟩
        · rw [h2]; simp [hp]
        · intro hn
          rw [List.filter_cons, if_neg (by simp [hpl])]
          exact h3 hn
    | some object =>
      have hpl : parseable LineConvert line = true := by simp [parseable, hp]
      simp only [readLines, bufferLine, hp]
      have hm : List.map some Lines ++ [some object] = (Lines ++ [object]).map some := by simp
      rw [hm]
      split
      · rename_i hgt
        refine ⟨[line], by simp, by simp [hp], fun hn => ⟨?_, ?_⟩⟩
        · right; simpa [hpl, lineBytes] using hgt
        · simpa [hpl, lineBytes] using hn
      · rename_i hle
        obtain ⟨taken, h1, h2, h3⟩ := ih (Lines ++ [object]) (n + line.utf8ByteSize)
        refine ⟨line :: taken, by simpa using h1, ?_, ?_⟩
        · rw [h2]; simp [hp]
        · intro hn
          obtain ⟨h3, h4⟩ := h3 (by omega)
          rw [List.filter_cons, if_pos hpl]
          refine ⟨?_, ?_⟩
          · rcases h3 with h3 | h3
            · left; exact h3
            · right
              rw [lineBytes_cons]
              omega
          · cases hF : taken.filter (parseable LineConvert) with
            | nil => simp [lineBytes]; omega
            | cons a F =>
              rw [hF] at h4
              rw [List.dropLast_cons₂, lineBytes_cons]
              omega

theorem splitLoop_empty {ρ ε : Type} (sp : SortParams ρ ε) (file : String) (bufsize : Int)
    (fuel : Nat) (input : List String) (chunk_idx : Nat) (chunks : List String) (disk : Disk)
    (h : (readLines sp.LineConvert bufsize input [] 0).1 = []) :
    splitLoop sp file bufsize (fuel + 1) input chunk_idx chunks disk
      = ⟨.returned chunks none, disk⟩ := by
  rw [splitLoop, h]
  simp [SortCollection.Len]

theorem splitLoop_step {ρ ε : Type} (sp : SortParams ρ ε) (encInt : Int → Bytes)
    (enc : ρ → Bytes) (hm : MarshalOk sp.codec encInt enc) (hw : WritesOk sp.FSInterface)
    (file : String) (bufsize : Int) (fuel : Nat) (input : List String) (chunk_idx : Nat)
    (chunks : List String) (disk : Disk) (B S : List ρ) (hB : B ≠ [])
    (h : (readLines sp.LineConvert bufsize input [] 0).1 = B.map some)
    (hsort : sort_Sort sp.Less (B.map some) = .ok (S.map some)) :
    splitLoop sp file bufsize (fuel + 1) input chunk_idx chunks disk
      = splitLoop sp file bufsize fuel (readLines sp.LineConvert bufsize input [] 0).2
          (chunk_idx + 1) (chunks ++ [chunkName file chunk_idx])
          ((chunkName file chunk_idx, chunkFile encInt enc S) :: disk) := by
  obtain ⟨hm1, hm2⟩ := hm
  obtain ⟨hw1, hw2, hw3, hw4, hw5, hw6⟩ := hw
  rw [splitLoop, h, hsort]
  have hlen : ¬ SortCollection.Len (B.map some) = 0 := by
    simpa [SortCollection.Len] using hB
  rw [if_neg hlen]
  simp only [hw1, hw2, hw3, hw4, hw5, hw6, hm1,
    writeObjects_ok sp.codec sp.FSInterface enc hm2 hw3, chunkFile, SortCollection.Len,
    List.length_map]

theorem filterMap_filter_parseable {ρ : Type} (LineConvert : String → Option ρ)
    (lines : List String) :
    (lines.filter (parseable LineConvert)).filterMap LineConvert
      = lines.filterMap LineConvert := by
  induction lines with
  | nil => rfl
  | cons l lines ih =>
    cases hp : LineConvert l with
    | none => simp [List.filter_cons, parseable, hp, ih]
    | some r => simp [List.filter_cons, parseable, hp, ih]

theorem filter_parseable_eq_nil {ρ : Type} (LineConvert : String → Option ρ)
    (lines : List String) (h : lines.filterMap LineConvert = []) :
    lines.filter (parseable LineConvert) = [] := by
  induction lines with
  | nil => rfl
  | cons l lines ih =>
    cases hp : LineConvert l with
    | none =>
      simp only [List.filterMap_cons, hp] at h
      simp [List.filter_cons, parseable, hp, ih h]
    | some r => simp [List.filterMap_cons, hp] at h

theorem splitLoop_spec {ρ ε : Type} (sp : SortParams ρ ε) (lt : ρ → Option ρ → Bool)
    (hnf : NeverFails sp.Less lt) (encInt : Int → Bytes) (enc : ρ → Bytes)
    (hm : MarshalOk sp.codec encInt enc) (hw : WritesOk sp.FSInterface)
    (file : String) (bufsize : Int) (fuel : Nat) :
    ∀ (input : List String), input.length < fuel →
    ∀ (chunk_idx : Nat) (chunks : List String) (disk : Disk),
    ∃ (runs : List (List String)) (written : List (List ρ)),
      List.Forall₂ (fun run w => w.Perm (run.filterMap sp.LineConvert) ∧
          (StrictWeakOrder lt → NonDecreasing lt w)) runs written ∧
      (∀ run ∈ runs, run ≠ [] ∧ ∀ l ∈ run, parseable sp.LineConvert l = true) ∧
      runs.flatten <+: input.filter (parseable sp.LineConvert) ∧
      (0 ≤ bufsize → runs.flatten = input.filter (parseable sp.LineConvert) ∧
        (∀ run ∈ runs, lineBytes run.dropLast ≤ bufsize) ∧
        ∀ run ∈ runs.dropLast, bufsize < lineBytes run) ∧
      splitLoop sp file bufsize fuel input chunk_idx chunks disk =
        ⟨.returned (chunks ++ (chunkFiles file encInt enc chunk_idx written).map Prod.fst) none,
          (chunkFiles file encInt enc chunk_idx written).reverse ++ disk⟩ := by
  induction fuel with
  | zero => intro input h; simp at h
  | succ fuel ih =>
    intro input hfuel chunk_idx chunks disk
    obtain ⟨taken, h1, h2, h3⟩ := readLines_size sp.LineConvert bufsize input [] 0
    simp only [List.map_nil, List.nil_append] at h1 h2 h3
    cases hB : taken.filterMap sp.LineConvert with
    | nil =>
      rw [hB] at h2
      refine ⟨[], [], List.Forall₂.nil, by simp, by simp, ?_, ?_⟩
      · intro hb
        have hF := filter_parseable_eq_nil sp.LineConvert taken hB
        obtain ⟨h3, _⟩ := h3 hb
        rw [hF] at h3
        simp only [lineBytes, List.map_nil, List.sum_nil, add_zero] at h3
        rcases h3 with h3 | h3
        · rw [h3, List.append_nil] at h1
          rw [h1, hF]; simp
        · omega
      · simpa [chunkFiles] using
          splitLoop_empty sp file bufsize fuel input chunk_idx chunks disk (by simpa using h2)
    | cons b0 B0 =>
      obtain ⟨S, hS1, hS2, hS3⟩ := sort_Sort_spec sp.Less lt hnf (taken.filterMap sp.LineConvert)
      have hne : taken.filterMap sp.LineConvert ≠ [] := by simp [hB]
      have hstep := splitLoop_step sp encInt enc hm hw file bufsize fuel input chunk_idx chunks
        disk (taken.filterMap sp.LineConvert) S hne h2 hS1
      have htaken : taken ≠ [] := by
        intro h; rw [h] at hB; simp at hB
      have hrest : (readLines sp.LineConvert bufsize input [] 0).2.length < fuel := by
        have := congrArg List.length h1
        rw [List.length_append] at this
        have := List.length_pos.mpr htaken
        omega
      obtain ⟨runs, written, hr1, hr2, hr3, hr4, hr5⟩ :=
        ih (readLines sp.LineConvert bufsize input [] 0).2 hrest (chunk_idx + 1)
          (chunks ++ [chunkName file chunk_idx])
          ((chunkName file chunk_idx, chunkFile encInt enc S) :: disk)
      have hrun : (taken.filter (parseable sp.LineConvert)).filterMap sp.LineConvert
          = taken.filterMap sp.LineConvert := filterMap_filter_parseable sp.LineConvert taken
      have hrunne : taken.filter (parseable sp.LineConvert) ≠ [] := by
        intro h; rw [h] at hrun; rw [← hrun] at hne; simp at hne
      have hfilter : input.filter (parseable sp.LineConvert)
          = taken.filter (parseable sp.LineConvert)
            ++ (readLines sp.LineConvert bufsize input [] 0).2.filter
              (parseable sp.LineConvert) := by
        conv_lhs => rw [h1]
        rw [List.filter_append]
      refine ⟨taken.filter (parseable sp.LineConvert) :: runs, S :: written,
        List.Forall₂.cons ⟨by rw [hrun]; exact hS2, hS3⟩ hr1, ?_, ?_, ?_, ?_⟩
      · intro run hrun'
        rcases List.mem_cons.mp hrun' with h | h
        · subst h
          exact ⟨hrunne, fun l hl => (List.mem_filter.mp hl).2⟩
        · exact hr2 run h
      · rw [hfilter, List.flatten_cons]
        exact (List.prefix_append_right_inj _).mpr hr3
      · intro hb
        obtain ⟨ha, hc⟩ := h3 hb
        obtain ⟨hr4a, hr4b, hr4c⟩ := hr4 hb
        refine ⟨by rw [hfilter, List.flatten_cons, hr4a], ?_, ?_⟩
        · intro run hrun'
          rcases List.mem_cons.mp hrun' with h | h
          · subst h; simpa using hc
          · exact hr4b run h
        · intro run hrun'
          cases runs with
          | nil => simp at hrun'
          | cons r1 runs1 =>
            rw [List.dropLast_cons₂] at hrun'
            rcases List.mem_cons.mp hrun' with h | h
            · subst h
              rcases ha with ha | ha
              · exfalso
                rw [ha] at hr4a
                simp only [List.filter_nil, List.flatten_cons, List.append_eq_nil] at hr4a
                exact (hr2 r1 (by simp)).1 hr4a.1
              · simpa using ha
            · exact hr4c run h
      · rw [hstep, hr5]
        simp [chunkFiles]

theorem ExternalSort_spec {ρ ε : Type} (sp : SortParams ρ ε) (lt : ρ → Option ρ → Bool)
    (hnf : NeverFails sp.Less lt) (encInt : Int → Bytes) (enc : ρ → Bytes)
    (hm : MarshalOk sp.codec encInt enc) (hw : WritesOk sp.FSInterface)
    (file : String) (bufsize : Int) (input : List String)
    (hin : sp.FSInterface.openRead file = .ok input) (disk : Disk) :
    ∃ (runs : List (List String)) (written : List (List ρ)),
      List.Forall₂ (fun run w => w.Perm (run.filterMap sp.LineConvert) ∧
          (StrictWeakOrder lt → NonDecreasing lt w)) runs written ∧
      (∀ run ∈ runs, run ≠ [] ∧ ∀ l ∈ run, parseable sp.LineConvert l = true) ∧
      runs.flatten <+: input.filter (parseable sp.LineConvert) ∧
      (0 ≤ bufsize → runs.flatten = input.filter (parseable sp.LineConvert) ∧
        (∀ run ∈ runs, lineBytes run.dropLast ≤ bufsize) ∧
        ∀ run ∈ runs.dropLast, bufsize < lineBytes run) ∧
      ExternalSort file bufsize sp disk = splitWrote file encInt enc written disk := by
  obtain ⟨runs, written, h1, h2, h3, h4, h5⟩ := splitLoop_spec sp lt hnf encInt enc hm hw file
    bufsize (input.length + 1) input (Nat.lt_succ_self _) 0 [] disk
  refine ⟨runs, written, h1, h2, h3, h4, ?_⟩
  simp only [ExternalSort, hin, h5, splitWrote, List.nil_append]

theorem filterMap_flatten_runs {ρ : Type} (LineConvert : String → Option ρ)
    (runs : List (List String)) :
    runs.flatten.filterMap LineConvert = (runs.map (List.filterMap LineConvert)).flatten := by
  induction runs with
  | nil => rfl
  | cons r rs ih =>
    rw [List.flatten_cons, List.filterMap_append, List.map_cons, List.flatten_cons, ih]

/-- C5, as amended (no input is lost by the split). For every finite sequence
of input lines and every budget `0 ≤ bufsize`, in a run in which the
comparator, the codec and the storage do not fail, `ExternalSort` returns with
a nil error, and the chunks it wrote are, in order, permutations of buffers
whose concatenation is exactly the sequence of records parsed from the
parseable lines in input order; unparseable lines contribute nothing and do
not end the split. -/
theorem split_keeps_all {ρ ε : Type} (sort_params : SortParams ρ ε)
    (lt : ρ → Option ρ → Bool) (hnf : NeverFails sort_params.Less lt) (encInt : Int → Bytes)
    (enc : ρ → Bytes) (hm : MarshalOk sort_params.codec encInt enc)
    (hw : WritesOk sort_params.FSInterface) (file : String) (bufsize : Int)
    (hbuf : 0 ≤ bufsize) (input : List String)
    (hin : sort_params.FSInterface.openRead file = .ok input) (disk : Disk) :
    SplitKeepsAll sort_params encInt enc file bufsize input disk := by
  obtain ⟨runs, written, h1, _, _, h4, h5⟩ := ExternalSort_spec sort_params lt hnf encInt enc
    hm hw file bufsize input hin disk
  refine ⟨runs.map (List.filterMap sort_params.LineConvert), written, ?_, ?_, h5⟩
  · rw [← filterMap_filter_parseable sort_params.LineConvert input, ← (h4 hbuf).1]
    exact (filterMap_flatten_runs sort_params.LineConvert runs).symm
  · rw [List.forall₂_map_left_iff]
    exact h1.imp fun _ _ h => h.1

theorem split_keeps_all_witness :
    SplitKeepsAll (IntSortParams ["5", "3", "9", "1", "No", "7"]) intEncInt intEnc "f" 1
      ["5", "3", "9", "1", "No", "7"] [] :=
  split_keeps_all (IntSortParams ["5", "3", "9", "1", "No", "7"]) intLt IntLess_neverFails
    intEncInt intEnc intCodec_marshalOk (okFS_writesOk _) "f" 1 (by decide)
    ["5", "3", "9", "1", "No", "7"] rfl []

/-- C5 as stated fails for a negative budget: with budget -1 the unparseable
first line "No" leaves the buffer empty, the split returns at once with no
chunk, and the record of the line "7" is lost. -/
theorem split_keeps_all_counterexample :
    ExternalSort "f" (-1) (IntSortParams ["No", "7"]) []
        = (⟨.returned [] none, []⟩ : SplitResult String) ∧
      ["No", "7"].filterMap ParseInt = [7] ∧
      ¬ SplitKeepsAll (IntSortParams ["No", "7"]) intEncInt intEnc "f" (-1) ["No", "7"] [] := by
  have heval : ExternalSort "f" (-1) (IntSortParams ["No", "7"]) []
      = (⟨.returned [] none, []⟩ : SplitResult String) := by decide
  have hparse : ["No", "7"].filterMap ParseInt = [7] := by decide
  refine ⟨heval, hparse, ?_⟩
  rintro ⟨buffers, written, h1, h2, h3⟩
  have h1' : buffers.flatten = [7] := h1.trans hparse
  rw [heval] at h3
  cases written with
  | nil =>
    cases h2
    simp at h1'
  | cons w ws =>
    have := congrArg SplitResult.disk h3
    simp [splitWrote, chunkFiles] at this

/-- C9 (flush trigger). For every finite input and every budget
`0 ≤ bufsize`, in a run in which the comparator, the codec and the storage do
not fail, `ExternalSort` returns after writing chunks that are, in order,
permutations of the records of consecutive runs of the parseable input lines;
measured by the byte length of the source lines, every run without its last
line totals at most `bufsize`, and every run except the last totals more than
`bufsize`. -/
theorem flush_trigger {ρ ε : Type} (sort_params : SortParams ρ ε)
    (lt : ρ → Option ρ → Bool) (hnf : NeverFails sort_params.Less lt) (encInt : Int → Bytes)
    (enc : ρ → Bytes) (hm : MarshalOk sort_params.codec encInt enc)
    (hw : WritesOk sort_params.FSInterface) (file : String) (bufsize : Int)
    (hbuf : 0 ≤ bufsize) (input : List String)
    (hin : sort_params.FSInterface.openRead file = .ok input) (disk : Disk) :
    ∃ (runs : List (List String)) (written : List (List ρ)),
      runs.flatten = input.filter (parseable sort_params.LineConvert) ∧
      List.Forall₂ (fun run w => w.Perm (run.filterMap sort_params.LineConvert)) runs written ∧
      ExternalSort file bufsize sort_params disk = splitWrote file encInt enc written disk ∧
      (∀ run ∈ runs, lineBytes run.dropLast ≤ bufsize) ∧
      ∀ run ∈ runs.dropLast, bufsize < lineBytes run := by
  obtain ⟨runs, written, h1, _, _, h4, h5⟩ := ExternalSort_spec sort_params lt hnf encInt enc
    hm hw file bufsize input hin disk
  exact ⟨runs, written, (h4 hbuf).1, h1.imp fun _ _ h => h.1, h5, (h4 hbuf).2.1, (h4 hbuf).2.2⟩

theorem flush_trigger_witness :
    ∃ (runs : List (List String)) (written : List (List Int)),
      runs.flatten = ["5", "3", "9", "1", "No", "7"].filter (parseable ParseInt) ∧
      List.Forall₂ (fun run w => w.Perm (run.filterMap ParseInt)) runs written ∧
      ExternalSort "f" 1 (IntSortParams ["5", "3", "9", "1", "No", "7"]) []
        = splitWrote "f" intEncInt intEnc written [] ∧
      (∀ run ∈ runs, lineBytes run.dropLast ≤ 1) ∧
      ∀ run ∈ runs.dropLast, 1 < lineBytes run :=
  flush_trigger (IntSortParams ["5", "3", "9", "1", "No", "7"]) intLt IntLess_neverFails
    intEncInt intEnc intCodec_marshalOk (okFS_writesOk _) "f" 1 (by decide)
    ["5", "3", "9", "1", "No", "7"] rfl []

theorem lineBytes_nonneg (lines : List String) : 0 ≤ lineBytes lines := by
  induction lines with
  | nil => simp [lineBytes]
  | cons l ls ih => rw [lineBytes_cons]; omega

theorem written_of_singleton_runs {ρ : Type} (LineConvert : String → Option ρ)
    (runs : List (List String)) (written : List (List ρ))
    (h : List.Forall₂ (fun run w => w.Perm (run.filterMap LineConvert)) runs written)
    (hs : ∀ run ∈ runs, ∃ l, run = [l] ∧ parseable LineConvert l = true) :
    written = (runs.flatten.filterMap LineConvert).map fun r => [r] := by
  induction h with
  | nil => rfl
  | @cons run w runs written hw _ ih =>
    obtain ⟨l, hl, hpl⟩ := hs run (by simp)
    subst hl
    have ih' := ih (fun r hr => hs r (by simp [hr]))
    cases hp : LineConvert l with
    | none => simp [parseable, hp] at hpl
    | some r =>
      simp only [List.filterMap_cons, hp, List.filterMap_nil] at hw
      rw [List.perm_singleton.mp hw, ih']
      simp [hp]

/-- C10 (oversized records). For every budget `0 ≤ bufsize` and every finite
input in which every parseable line is longer than `bufsize` bytes, in a run in
which the comparator, the codec and the storage do not fail, `ExternalSort`
returns after writing exactly one chunk per parseable line: the `i`-th chunk
is the encoded count 1 followed by the encoded record of the `i`-th parseable
line. -/
theorem oversized_records {ρ ε : Type} (sort_params : SortParams ρ ε)
    (lt : ρ → Option ρ → Bool) (hnf : NeverFails sort_params.Less lt) (encInt : Int → Bytes)
    (enc : ρ → Bytes) (hm : MarshalOk sort_params.codec encInt enc)
    (hw : WritesOk sort_params.FSInterface) (file : String) (bufsize : Int)
    (hbuf : 0 ≤ bufsize) (input : List String)
    (hin : sort_params.FSInterface.openRead file = .ok input)
    (hbig : ∀ line ∈ input, parseable sort_params.LineConvert line = true →
      bufsize < line.utf8ByteSize) (disk : Disk) :
    ExternalSort file bufsize sort_params disk
        = splitWrote file encInt enc
            ((input.filterMap sort_params.LineConvert).map fun r => [r]) disk ∧
      ∀ r : ρ, chunkFile encInt enc [r] = encInt 1 ++ enc r := by
  obtain ⟨runs, written, h1, h2, _, h4, h5⟩ := ExternalSort_spec sort_params lt hnf encInt enc
    hm hw file bufsize input hin disk
  obtain ⟨h4a, h4b, _⟩ := h4 hbuf
  have hsingle : ∀ run ∈ runs, ∃ l, run = [l] ∧ parseable sort_params.LineConvert l = true := by
    intro run hrun
    obtain ⟨hne, hpar⟩ := h2 run hrun
    cases run with
    | nil => exact absurd rfl hne
    | cons l1 tl =>
      cases tl with
      | nil => exact ⟨l1, rfl, hpar l1 (by simp)⟩
      | cons l2 tl =>
        exfalso
        have hmem : l1 ∈ input := by
          have : l1 ∈ runs.flatten :=
            List.mem_flatten.mpr ⟨l1 :: l2 :: tl, hrun, by simp⟩
          rw [h4a] at this
          exact (List.mem_filter.mp this).1
        have hl1 := hbig l1 hmem (hpar l1 (by simp))
        have hd := h4b _ hrun
        rw [List.dropLast_cons₂, lineBytes_cons] at hd
        have := lineBytes_nonneg (l2 :: tl).dropLast
        omega
  have hwritten := written_of_singleton_runs sort_params.LineConvert runs written
    (h1.imp fun _ _ h => h.1) hsingle
  rw [h4a, filterMap_filter_parseable] at hwritten
  refine ⟨by rw [h5, hwritten], ?_⟩
  intro r
  simp [chunkFile]

theorem oversized_records_witness :
    ExternalSort "f" 1 (IntSortParams ["15", "No", "-3", "", "900"]) []
        = splitWrote "f" intEncInt intEnc
            ((["15", "No", "-3", "", "900"].filterMap ParseInt).map fun r => [r]) [] ∧
      ∀ r : Int, chunkFile intEncInt intEnc [r] = intEncInt 1 ++ intEnc r :=
  oversized_records (IntSortParams ["15", "No", "-3", "", "900"]) intLt IntLess_neverFails
    intEncInt intEnc intCodec_marshalOk (okFS_writesOk _) "f" 1 (by decide)
    ["15", "No", "-3", "", "900"] rfl (by decide) []

/-- C6 (a failed split returns no chunk list) does not hold of the code. On
the input lines "5", "3" with budget 0 the second flush fails: when opening
the second chunk file fails, or obtaining its writer fails, `ExternalSort`
returns the error together with the list naming the first chunk; when the
write of a record fails, the process is terminated and nothing is returned. -/
theorem failed_flush_evaluation :
    (ExternalSort "f" 0
        (IntSortParamsOn (failOpenFS ["5", "3"] "f.chunk.00000001.gz")) []).fin
      = .returned ["f.chunk.00000000.gz"] (some "open failed") ∧
    (ExternalSort "f" 0
        (IntSortParamsOn (failWriterFS ["5", "3"] "f.chunk.00000001.gz")) []).fin
      = .returned ["f.chunk.00000000.gz"] (some "writer failed") ∧
    (ExternalSort "f" 0
        (IntSortParamsOn (failWriteFS ["5", "3"] "f.chunk.00000001.gz" 0)) []).fin
      = .returned [] (some "write failed") ∧
    (ExternalSort "f" 0
        (IntSortParamsOn (failWriteFS ["5", "3"] "f.chunk.00000001.gz" 1)) []).fin
      = .fatal := by
  decide

/-- C7 as stated fails: merging a chunk holding a record of another type and
a chunk holding an `Int`, the comparator fails in the first selection; the
process exits, no record and no error marker is sent on the output sequence,
and the error returned to the caller is nil. With a comparator that errs on
nil and an empty first chunk the process ends by a nil dereference panic
instead, again with a nil returned error. -/
theorem comparator_failure_counterexample :
    NWayMergeGenerator ["a", "b"] mixedParams [("a", [1, 1, 7]), ("b", [1, 0, 0, 3])]
        = (⟨[], .exit "Failed to convert"⟩, none) ∧
      NWayMergeGenerator ["a", "b"] errOnNilParams [("a", [0]), ("b", [1, 0, 7])]
        = (⟨[], .nilDeref⟩, none) := by
  decide

theorem intCodec_decodeOk : DecodeOk intCodec intEncInt intEnc := by
  refine ⟨fun n rest => by simp [intCodec, intEncInt], fun r rest => ?_, ⟨"EOF", rfl⟩⟩
  by_cases h : r < 0
  · have : -(r.natAbs : Int) = r := by omega
    simp [intCodec, intEnc, h, this, -Int.natCast_natAbs]
  · have : (r.natAbs : Int) = r := by omega
    simp [intCodec, intEnc, h, this, -Int.natCast_natAbs]

theorem decodeObjects_short {ρ ε : Type} (codec : Codec ρ ε) (enc : ρ → Bytes)
    (hdec : ∀ (r : ρ) (rest : Bytes), codec.decode (enc r ++ rest) = .ok (r, rest))
    (heof : ∃ e, codec.decode [] = .error e) (records : List ρ) :
    ∀ n : Nat, records.length < n →
      decodeObjects codec n (records.map enc).flatten = ⟨records, .dead⟩ := by
  induction records with
  | nil =>
    intro n hn
    obtain ⟨e, he⟩ := heof
    cases n with
    | zero => simp at hn
    | succ n => simp [decodeObjects, he]
  | cons r records ih =>
    intro n hn
    cases n with
    | zero => simp at hn
    | succ n =>
      have := ih n (by simpa using hn)
      simp [decodeObjects, hdec, this]

theorem decodeObjects_enough {ρ ε : Type} (codec : Codec ρ ε) (enc : ρ → Bytes)
    (hdec : ∀ (r : ρ) (rest : Bytes), codec.decode (enc r ++ rest) = .ok (r, rest))
    (n : Nat) : ∀ records : List ρ, n ≤ records.length →
      decodeObjects codec n (records.map enc).flatten = ⟨records.take n, .closed⟩ := by
  induction n with
  | zero => intro records _; simp [decodeObjects]
  | succ n ih =>
    intro records hn
    cases records with
    | nil => simp at hn
    | cons r records =>
      have := ih records (by simpa using hn)
      simp [decodeObjects, hdec, this]

theorem producer_declaredFile {ρ ε : Type} (codec : Codec ρ ε) (encInt : Int → Bytes)
    (enc : ρ → Bytes) (hd : DecodeOk codec encInt enc) (n : Nat) (records : List ρ) :
    producer codec (declaredFile encInt enc n records)
      = decodeObjects codec n (records.map enc).flatten := by
  simp [producer, declaredFile, hd.1]

theorem fill_cases {ρ : Type} (ls : List (Option ρ)) : ∀ cs : List (Chan ρ),
    ls.length = cs.length →
    fill ls cs = .dead ∨ ∃ ls' cs' more, fill ls cs = .filled ls' cs' more ∧
      ls'.length = cs'.length ∧ cs'.map Chan.fin = cs.map Chan.fin ∧
      (ChanEnd.dead ∈ cs.map Chan.fin → more = true) := by
  induction ls with
  | nil => intro cs h; right; cases cs <;> simp_all [fill]
  | cons slot ls ih =>
    intro cs hlen
    cases cs with
    | nil => simp at hlen
    | cons c cs =>
      rcases ih cs (by simpa using hlen) with h | ⟨ls1, cs1, more1, h1, h2, h3, h4⟩
      · cases slot with
        | some x => left; simp [fill, h]
        | none =>
          obtain ⟨items, fin⟩ := c
          cases items with
          | cons x later => left; simp [fill, h]
          | nil => cases fin <;> (left; simp [fill, h])
      · cases slot with
        | some x =>
          right
          exact ⟨some x :: ls1, c :: cs1, true, by simp [fill, h1], by simp [h2], by simp [h3],
            fun _ => rfl⟩
        | none =>
          obtain ⟨items, fin⟩ := c
          cases items with
          | cons x later =>
            right
            exact ⟨some x :: ls1, ⟨later, fin⟩ :: cs1, true, by simp [fill, h1], by simp [h2],
              by simp [h3], fun _ => rfl⟩
          | nil =>
            cases fin with
            | dead => left; simp [fill]
            | closed =>
              right
              refine ⟨none :: ls1, ⟨[], .closed⟩ :: cs1, more1, by simp [fill, h1], by simp [h2],
                by simp [h3], ?_⟩
              intro hd
              simp only [List.map_cons, List.mem_cons] at hd
              rcases hd with hd | hd
              · exact absurd hd (by simp)
              · exact h4 hd

theorem consumerLoop_dead {ρ ε : Type} (less : ρ → Option ρ → Except ε Bool) (fuel : Nat) :
    ∀ (ls : List (Option ρ)) (cs : List (Chan ρ)), ls.length = cs.length →
      ChanEnd.dead ∈ cs.map Chan.fin → (consumerLoop less fuel ls cs).fin ≠ .done := by
  induction fuel with
  | zero => intro ls cs _ _; simp [consumerLoop]
  | succ fuel ih =>
    intro ls cs hlen hdead
    rw [consumerLoop]
    rcases fill_cases ls cs hlen with h | ⟨ls', cs', more, h1, h2, h3, h4⟩
    · simp [h]
    · rw [h1, h4 hdead]
      simp only
      cases hsel : selectMin less ls' with
      | error e =>
        obtain ⟨e, min⟩ := e
        cases min <;> simp
      | ok r =>
        obtain ⟨min, i⟩ := r
        simp only
        cases hget : ls'[i]?.join with
        | none => simp
        | some x =>
          simp only
          exact ih (ls'.set i none) cs' (by simp [h2]) (by rw [h3]; exact hdead)

theorem openChunks_spec {ε : Type} (fs : FileSystemInterface ε) (disk : Disk)
    (chunks : List String) : ∀ streams : List Bytes, openChunks fs disk chunks = some streams →
      streams.length = chunks.length ∧
      ∀ (j : Nat) (path : String), chunks[j]? = some path → streams[j]? = disk.lookup path := by
  induction chunks with
  | nil =>
    intro streams h
    simp only [openChunks, Option.some.injEq] at h
    subst h
    simp
  | cons chunk rest ih =>
    intro streams h
    rw [openChunks] at h
    cases h1 : fs.openChunk chunk <;> cases h2 : disk.lookup chunk <;>
      cases h3 : fs.rawReader chunk <;> simp only [h1, h2, h3] at h <;> try exact absurd h (by simp)
    cases h4 : openChunks fs disk rest with
    | none => simp [h4] at h
    | some streams' =>
      simp only [h4, Option.some.injEq] at h
      subst h
      obtain ⟨ih1, ih2⟩ := ih streams' h4
      refine ⟨by simp [ih1], ?_⟩
      intro j path hj
      cases j with
      | zero =>
        simp only [List.getElem?_cons_zero, Option.some.injEq] at hj
        subst hj
        simp [h2]
      | succ j =>
        simp only [List.getElem?_cons_succ] at hj ⊢
        exact ih2 j path hj

theorem NWayMergeGenerator_dead {ρ ε : Type} (chunks : List String)
    (sort_params : SortParams ρ ε) (disk : Disk) (j : Nat) (path : String) (stream : Bytes)
    (hj : chunks[j]? = some path) (hfile : disk.lookup path = some stream)
    (hdead : (producer sort_params.codec stream).fin = .dead) :
    (NWayMergeGenerator chunks sort_params disk).1.fin ≠ .done := by
  unfold NWayMergeGenerator
  by_cases hnd : chunks.Nodup
  · simp only [hnd, if_true]
    cases hopen : openChunks sort_params.FSInterface disk chunks with
    | none => simp
    | some streams =>
      simp only
      obtain ⟨_, h2⟩ := openChunks_spec sort_params.FSInterface disk chunks streams hopen
      have hs : streams[j]? = some stream := (h2 j path hj).trans hfile
      unfold consumer
      refine consumerLoop_dead sort_params.Less _ _ _ (by simp) ?_
      rw [List.mem_map]
      refine ⟨producer sort_params.codec stream, ?_, hdead⟩
      exact List.mem_map.mpr ⟨stream, List.getElem?_mem hs, rfl⟩
  · simp [hnd]

/-- C8, as amended (count mismatch). With a codec that round-trips: a chunk
that holds fewer records than its declared count makes its worker fail on a
decode after delivering the records present, and no merge over a chunk list
containing it completes normally; a chunk that holds at least its declared
count `n` makes its worker deliver exactly the first `n` records and close
its queue. -/
theorem count_mismatch {ρ ε : Type} (sort_params : SortParams ρ ε) (encInt : Int → Bytes)
    (enc : ρ → Bytes) (hd : DecodeOk sort_params.codec encInt enc) (n : Nat)
    (records : List ρ) :
    (records.length < n →
      producer sort_params.codec (declaredFile encInt enc n records) = ⟨records, .dead⟩ ∧
      ∀ (chunks : List String) (disk : Disk) (j : Nat) (path : String),
        chunks[j]? = some path →
        disk.lookup path = some (declaredFile encInt enc n records) →
        (NWayMergeGenerator chunks sort_params disk).1.fin ≠ .done) ∧
    (n ≤ records.length →
      producer sort_params.codec (declaredFile encInt enc n records)
        = ⟨records.take n, .closed⟩) := by
  refine ⟨fun hlt => ?_, fun hle => ?_⟩
  · have hp : producer sort_params.codec (declaredFile encInt enc n records)
        = ⟨records, .dead⟩ := by
      rw [producer_declaredFile sort_params.codec encInt enc hd]
      exact decodeObjects_short sort_params.codec enc hd.2.1 hd.2.2 records n hlt
    refine ⟨hp, ?_⟩
    intro chunks disk j path hj hfile
    exact NWayMergeGenerator_dead chunks sort_params disk j path _ hj hfile (by rw [hp])
  · rw [producer_declaredFile sort_params.codec encInt enc hd]
    exact decodeObjects_enough sort_params.codec enc hd.2.1 n records hle

theorem count_mismatch_witness :
    (producer (IntSortParams []).codec (declaredFile intEncInt intEnc 3 [4, 7])
        = ⟨[4, 7], .dead⟩ ∧
      ∀ (chunks : List String) (disk : Disk) (j : Nat) (path : String),
        chunks[j]? = some path →
        disk.lookup path = some (declaredFile intEncInt intEnc 3 [4, 7]) →
        (NWayMergeGenerator chunks (IntSortParams []) disk).1.fin ≠ .done) ∧
    producer (IntSortParams []).codec (declaredFile intEncInt intEnc 1 [4, 7])
      = ⟨([4, 7] : List Int).take 1, .closed⟩ :=
  ⟨(count_mismatch (IntSortParams []) intEncInt intEnc intCodec_decodeOk 3 [4, 7]).1
      (by decide),
    (count_mismatch (IntSortParams []) intEncInt intEnc intCodec_decodeOk 1 [4, 7]).2
      (by decide)⟩

/-- C8 as stated fails when more records are present than declared: a chunk
declaring one record and holding the records 4 and 7 is merged to the output
4, the merge completes normally, and the record 7 is omitted. -/
theorem count_mismatch_counterexample :
    NWayMergeGenerator ["c"] (IntSortParams []) [("c", declaredFile intEncInt intEnc 1 [4, 7])]
      = (⟨[4], .done⟩, none) := by
  decide

theorem digitChar_value (d : Nat) (h : d < 10) : (Nat.digitChar d).toNat - 48 = d := by
  interval_cases d <;> rfl

theorem toDigitsCore_value (fuel : Nat) : ∀ (n : Nat) (ds : List Char), n < fuel →
    ∃ k, ∀ a, digitsValue (Nat.toDigitsCore 10 fuel n ds) a = digitsValue ds (a * 10 ^ k + n) := by
  induction fuel with
  | zero => intro n ds h; simp at h
  | succ fuel ih =>
    intro n ds hn
    by_cases h0 : n / 10 = 0
    · refine ⟨1, fun a => ?_⟩
      have hlt : n < 10 := by omega
      simp only [Nat.toDigitsCore, h0, if_true, digitsValue, List.foldl_cons,
        digitChar_value (n % 10) (Nat.mod_lt _ (by decide))]
      congr 1
      omega
    · obtain ⟨k, hk⟩ := ih (n / 10) (Nat.digitChar (n % 10) :: ds) (by omega)
      refine ⟨k + 1, fun a => ?_⟩
      simp only [Nat.toDigitsCore, h0, if_false]
      rw [hk a]
      simp only [digitsValue, List.foldl_cons,
        digitChar_value (n % 10) (Nat.mod_lt _ (by decide))]
      congr 1
      rw [pow_succ]
      have := Nat.div_add_mod n 10
      nlinarith

theorem pad8_value (n : Nat) : digitsValue (pad8 n) 0 = n := by
  obtain ⟨k, hk⟩ := toDigitsCore_value (n + 1) n [] (Nat.lt_succ_self n)
  have hz : ∀ m : Nat, digitsValue (List.replicate m '0') 0 = 0 := by
    intro m
    induction m with
    | zero => rfl
    | succ m ih =>
      simp only [digitsValue, List.replicate_succ, List.foldl_cons] at ih ⊢
      exact ih
  have := hk 0
  simp only [digitsValue, List.foldl_nil, Nat.zero_mul, Nat.zero_add] at this
  simp only [digitsValue] at hz
  simp only [pad8, digitsValue, List.foldl_append, hz, Nat.toDigits]
  exact this

theorem chunkName_injective (file : String) (i j : Nat)
    (h : chunkName file i = chunkName file j) : i = j := by
  have hd := congrArg String.data h
  simp only [chunkName, String.data_append] at hd
  have h1 := List.append_cancel_right hd
  have h2 := List.append_cancel_left h1
  have := congrArg (fun cs => digitsValue cs 0) h2
  simpa [pad8_value] using this

theorem StrictTotalOrder.toWeak {ρ : Type} {lt : ρ → Option ρ → Bool}
    (h : StrictTotalOrder lt) : StrictWeakOrder lt where
  irrefl := h.irrefl
  trans := h.trans
  negTrans := by
    intro a b c hac
    by_cases hbc : b = c
    · subst hbc; exact Or.inl hac
    · rcases h.total b c hbc with h1 | h1
      · exact Or.inr h1
      · exact Or.inl (h.trans a c b hac h1)

theorem intLt_strictTotalOrder : StrictTotalOrder intLt where
  irrefl := by intro a; simp [intLt]
  trans := by intro a b c; simp only [intLt, decide_eq_true_eq]; omega
  total := by intro a b; simp only [intLt, decide_eq_true_eq]; omega

theorem okFS_readsOk (lines : List String) : ReadsOk (okFS lines) :=
  ⟨fun _ => rfl, fun _ => rfl⟩

theorem chunkFiles_names {ρ : Type} (file : String) (encInt : Int → Bytes) (enc : ρ → Bytes)
    (written : List (List ρ)) : ∀ idx : Nat,
    (chunkFiles file encInt enc idx written).map Prod.fst
      = (List.range' idx written.length).map (chunkName file) := by
  induction written with
  | nil => intro idx; rfl
  | cons w ws ih => intro idx; simp [chunkFiles, List.range'_succ, ih (idx + 1)]

theorem chunkFiles_names_nodup {ρ : Type} (file : String) (encInt : Int → Bytes)
    (enc : ρ → Bytes) (written : List (List ρ)) (idx : Nat) :
    ((chunkFiles file encInt enc idx written).map Prod.fst).Nodup := by
  rw [chunkFiles_names]
  exact List.Nodup.map (fun i j h => chunkName_injective file i j h) (List.nodup_range' _ _)

theorem lookup_chunkFiles_other {ρ : Type} (file : String) (encInt : Int → Bytes)
    (enc : ρ → Bytes) (name : String) (written : List (List ρ)) :
    ∀ (idx : Nat) (disk : Disk), (∀ k, k < written.length → name ≠ chunkName file (idx + k)) →
      List.lookup name ((chunkFiles file encInt enc idx written).reverse ++ disk)
        = List.lookup name disk := by
  induction written with
  | nil => intro idx disk _; rfl
  | cons w ws ih =>
    intro idx disk hne
    simp only [chunkFiles, List.reverse_cons, List.append_assoc, List.singleton_append]
    rw [ih (idx + 1) _ (fun k hk => by
      have := hne (k + 1) (by simpa using hk)
      rwa [show idx + (k + 1) = idx + 1 + k by omega] at this)]
    have h0 := hne 0 (by simp)
    rw [Nat.add_zero] at h0
    have hb : (name == chunkName file idx) = false := beq_eq_false_iff_ne.mpr h0
    rw [List.lookup_cons, hb]

theorem lookup_chunkFiles {ρ : Type} (file : String) (encInt : Int → Bytes)
    (enc : ρ → Bytes) (written : List (List ρ)) :
    ∀ (idx : Nat) (disk : Disk) (j : Nat) (w : List ρ), written[j]? = some w →
      List.lookup (chunkName file (idx + j))
          ((chunkFiles file encInt enc idx written).reverse ++ disk)
        = some (chunkFile encInt enc w) := by
  induction written with
  | nil => intro idx disk j w h; simp at h
  | cons w0 ws ih =>
    intro idx disk j w hj
    simp only [chunkFiles, List.reverse_cons, List.append_assoc, List.singleton_append]
    cases j with
    | zero =>
      simp only [List.getElem?_cons_zero, Option.some.injEq] at hj
      subst hj
      rw [lookup_chunkFiles_other file encInt enc _ ws (idx + 1) _ (fun k _ h => by
        have := chunkName_injective file _ _ h
        omega)]
      simp [List.lookup_cons]
    | succ j =>
      simp only [List.getElem?_cons_succ] at hj
      have := ih (idx + 1) ((chunkName file idx, chunkFile encInt enc w0) :: disk) j w hj
      rwa [show idx + 1 + j = idx + (j + 1) by omega] at this

theorem openChunks_chunkFiles {ρ ε : Type} (fs : FileSystemInterface ε) (hr : ReadsOk fs)
    (file : String) (encInt : Int → Bytes) (enc : ρ → Bytes) (D : Disk)
    (written : List (List ρ)) : ∀ idx : Nat,
    (∀ (j : Nat) (w : List ρ), written[j]? = some w →
      List.lookup (chunkName file (idx + j)) D = some (chunkFile encInt enc w)) →
    openChunks fs D ((chunkFiles file encInt enc idx written).map Prod.fst)
      = some (written.map (chunkFile encInt enc)) := by
  induction written with
  | nil => intro idx _; rfl
  | cons w ws ih =>
    intro idx h
    have h0 := h 0 w (by simp)
    rw [Nat.add_zero] at h0
    have ih' := ih (idx + 1) (fun j w' hj => by
      have := h (j + 1) w' (by simpa using hj)
      rwa [show idx + (j + 1) = idx + 1 + j by omega] at this)
    simp only [chunkFiles, List.map_cons, openChunks, hr.1, hr.2, h0, ih']

theorem producer_chunkFile {ρ ε : Type} (codec : Codec ρ ε) (encInt : Int → Bytes)
    (enc : ρ → Bytes) (hd : DecodeOk codec encInt enc) (w : List ρ) :
    producer codec (chunkFile encInt enc w) = ⟨w, .closed⟩ := by
  have h := producer_declaredFile codec encInt enc hd w.length w
  have h2 := decodeObjects_enough codec enc hd.2.1 w.length w (Nat.le_refl _)
  rw [List.take_length] at h2
  rw [← h2, ← h]
  rfl

theorem NWayMergeGenerator_splitWrote {ρ ε : Type} (sp : SortParams ρ ε)
    (lt : ρ → Option ρ → Bool) (hnf : NeverFails sp.Less lt) (hnil : LessThanNil lt)
    (encInt : Int → Bytes) (enc : ρ → Bytes) (hd : DecodeOk sp.codec encInt enc)
    (hr : ReadsOk sp.FSInterface) (file : String) (written : List (List ρ)) (disk : Disk) :
    ∃ out, NWayMergeGenerator ((chunkFiles file encInt enc 0 written).map Prod.fst) sp
        ((chunkFiles file encInt enc 0 written).reverse ++ disk) = (⟨out, .done⟩, none) ∧
      out.Perm written.flatten ∧
      (StrictWeakOrder lt → (∀ w ∈ written, NonDecreasing lt w) → NonDecreasing lt out) := by
  obtain ⟨out, h1, h2, h3⟩ := consumer_closed sp.Less lt hnf hnil written
  refine ⟨out, ?_, h2, h3⟩
  have hopen := openChunks_chunkFiles sp.FSInterface hr file encInt enc
    ((chunkFiles file encInt enc 0 written).reverse ++ disk) written 0 (fun j w hj => by
      have := lookup_chunkFiles file encInt enc written 0 disk j w hj
      exact this)
  have hprod : (written.map (chunkFile encInt enc)).map (producer sp.codec)
      = written.map fun c => (⟨c, .closed⟩ : Chan ρ) := by
    rw [List.map_map]
    exact List.map_congr_left fun w _ => producer_chunkFile sp.codec encInt enc hd w
  unfold NWayMergeGenerator
  rw [if_pos (chunkFiles_names_nodup file encInt enc written 0), hopen]
  simp only [hprod, h1]

theorem written_sorted {ρ : Type} (LineConvert : String → Option ρ)
    (lt : ρ → Option ρ → Bool) (runs : List (List String)) (written : List (List ρ))
    (h : List.Forall₂ (fun run w => w.Perm (run.filterMap LineConvert) ∧
      (StrictWeakOrder lt → NonDecreasing lt w)) runs written) (hswo : StrictWeakOrder lt) :
    ∀ w ∈ written, NonDecreasing lt w := by
  induction h with
  | nil => intro w hw; simp at hw
  | cons hrw _ ih =>
    intro w hw
    rcases List.mem_cons.mp hw with h | h
    · subst h; exact hrw.2 hswo
    · exact ih w h

theorem written_flatten_perm {ρ : Type} (LineConvert : String → Option ρ)
    (lt : ρ → Option ρ → Bool) (runs : List (List String)) (written : List (List ρ))
    (h : List.Forall₂ (fun run w => w.Perm (run.filterMap LineConvert) ∧
      (StrictWeakOrder lt → NonDecreasing lt w)) runs written) :
    written.flatten.Perm (runs.map (List.filterMap LineConvert)).flatten := by
  induction h with
  | nil => exact List.Perm.refl _
  | cons hrw _ ih =>
    simp only [List.flatten_cons, List.map_cons]
    exact List.Perm.append hrw.1 ih

/-- C1 (round trip). For every finite sequence of input lines and every
budget `0 ≤ bufsize`, with a codec that encodes every value and round-trips, a
storage layer in which no call fails and which returns what was written, and a
comparator that never fails, is a strict total order on records and reports
every record as less than nil: `ExternalSort` returns a chunk list with a nil
error, and `NWayMergeGenerator` over that list and the storage left by the
split ends normally after emitting a sequence that is non-decreasing under the
comparator and a permutation of the records parsed from the parseable input
lines. -/
theorem round_trip {ρ ε : Type} (sort_params : SortParams ρ ε) (lt : ρ → Option ρ → Bool)
    (hnf : NeverFails sort_params.Less lt) (hsto : StrictTotalOrder lt)
    (hnil : LessThanNil lt) (encInt : Int → Bytes) (enc : ρ → Bytes)
    (hm : MarshalOk sort_params.codec encInt enc) (hd : DecodeOk sort_params.codec encInt enc)
    (hw : WritesOk sort_params.FSInterface) (hr : ReadsOk sort_params.FSInterface)
    (file : String) (bufsize : Int) (hbuf : 0 ≤ bufsize) (input : List String)
    (hin : sort_params.FSInterface.openRead file = .ok input) (disk : Disk) :
    ∃ (chunks : List String) (out : List ρ),
      (ExternalSort file bufsize sort_params disk).fin = .returned chunks none ∧
      NWayMergeGenerator chunks sort_params (ExternalSort file bufsize sort_params disk).disk
        = (⟨out, .done⟩, none) ∧
      NonDecreasing lt out ∧ out.Perm (input.filterMap sort_params.LineConvert) := by
  obtain ⟨runs, written, h1, _, _, h4, h5⟩ := ExternalSort_spec sort_params lt hnf encInt enc
    hm hw file bufsize input hin disk
  obtain ⟨out, hout, hperm, hsorted⟩ := NWayMergeGenerator_splitWrote sort_params lt hnf hnil
    encInt enc hd hr file written disk
  refine ⟨(chunkFiles file encInt enc 0 written).map Prod.fst, out, by rw [h5]; rfl,
    by rw [h5]; exact hout, ?_, ?_⟩
  · exact hsorted hsto.toWeak
      (written_sorted sort_params.LineConvert lt runs written h1 hsto.toWeak)
  · refine hperm.trans ?_
    rw [← filterMap_filter_parseable sort_params.LineConvert input, ← (h4 hbuf).1,
      filterMap_flatten_runs]
    exact written_flatten_perm sort_params.LineConvert lt runs written h1

theorem round_trip_witness :
    ∃ (chunks : List String) (out : List Int),
      (ExternalSort "f" 1 (IntSortParams ["5", "3", "9", "1", "No", "7"]) []).fin
        = .returned chunks none ∧
      NWayMergeGenerator chunks (IntSortParams ["5", "3", "9", "1", "No", "7"])
          (ExternalSort "f" 1 (IntSortParams ["5", "3", "9", "1", "No", "7"]) []).disk
        = (⟨out, .done⟩, none) ∧
      NonDecreasing intLt out ∧
      out.Perm (["5", "3", "9", "1", "No", "7"].filterMap ParseInt) :=
  round_trip (IntSortParams ["5", "3", "9", "1", "No", "7"]) intLt IntLess_neverFails
    intLt_strictTotalOrder intLt_lessThanNil intEncInt intEnc intCodec_marshalOk
    intCodec_decodeOk (okFS_writesOk _) (okFS_readsOk _) "f" 1 (by decide)
    ["5", "3", "9", "1", "No", "7"] rfl []

theorem openChunks_files {ρ ε : Type} (fs : FileSystemInterface ε) (hr : ReadsOk fs)
    (encInt : Int → Bytes) (enc : ρ → Bytes) (disk : Disk) (names : List String)
    (chunks : List (List ρ))
    (h : List.Forall₂ (fun name c => disk.lookup name = some (chunkFile encInt enc c))
      names chunks) :
    openChunks fs disk names = some (chunks.map (chunkFile encInt enc)) := by
  induction h with
  | nil => rfl
  | cons h0 _ ih => simp only [openChunks, hr.1, hr.2, h0, ih, List.map_cons]

/-- C2 (merge ordering). For every list of chunks, of any lengths, each
non-decreasing under a comparator that never fails, is a strict weak order and
reports every record as less than nil: the coordinator, fed by workers that
deliver the records of the chunks and close their queues, ends normally after
emitting a finite sequence that is non-decreasing, is a permutation of the
records of all chunks, and whose length is the sum of the chunk lengths; and
`NWayMergeGenerator` emits that sequence and ends normally on every list of
pairwise distinct paths whose files are these chunks, when the codec
round-trips and the storage opens every chunk. -/
theorem merge_sorted_permutation {ρ ε : Type} (sort_params : SortParams ρ ε)
    (lt : ρ → Option ρ → Bool) (hnf : NeverFails sort_params.Less lt)
    (hswo : StrictWeakOrder lt) (hnil : LessThanNil lt) (chunks : List (List ρ))
    (hsorted : ∀ c ∈ chunks, NonDecreasing lt c) :
    ∃ out, consumer sort_params.Less (chunks.map fun c => ⟨c, .closed⟩) = ⟨out, .done⟩ ∧
      NonDecreasing lt out ∧ out.Perm chunks.flatten ∧
      out.length = (chunks.map List.length).sum ∧
      ∀ (encInt : Int → Bytes) (enc : ρ → Bytes) (names : List String) (disk : Disk),
        DecodeOk sort_params.codec encInt enc → ReadsOk sort_params.FSInterface →
        names.Nodup →
        List.Forall₂ (fun name c => disk.lookup name = some (chunkFile encInt enc c))
          names chunks →
        NWayMergeGenerator names sort_params disk = (⟨out, .done⟩, none) := by
  obtain ⟨out, h1, h2, h3⟩ := consumer_closed sort_params.Less lt hnf hnil chunks
  refine ⟨out, h1, h3 hswo hsorted, h2, by rw [h2.length_eq, List.length_flatten], ?_⟩
  intro encInt enc names disk hd hr hnd hfiles
  have hopen := openChunks_files sort_params.FSInterface hr encInt enc disk names chunks hfiles
  have hprod : (chunks.map (chunkFile encInt enc)).map (producer sort_params.codec)
      = chunks.map fun c => (⟨c, .closed⟩ : Chan ρ) := by
    rw [List.map_map]
    exact List.map_congr_left fun w _ => producer_chunkFile sort_params.codec encInt enc hd w
  unfold NWayMergeGenerator
  rw [if_pos hnd, hopen]
  simp only [hprod, h1]

theorem merge_sorted_permutation_witness :
    ∃ out, consumer (IntSortParams []).Less ([[3, 5, 5, 8, 9], [5], []].map fun c => ⟨c, .closed⟩)
        = ⟨out, .done⟩ ∧
      NonDecreasing intLt out ∧ out.Perm [[3, 5, 5, 8, 9], [5], []].flatten ∧
      out.length = ([[3, 5, 5, 8, 9], [5], []].map List.length).sum ∧
      ∀ (encInt : Int → Bytes) (enc : Int → Bytes) (names : List String) (disk : Disk),
        DecodeOk (IntSortParams []).codec encInt enc → ReadsOk (IntSortParams []).FSInterface →
        names.Nodup →
        List.Forall₂ (fun name c => disk.lookup name = some (chunkFile encInt enc c))
          names [[3, 5, 5, 8, 9], [5], []] →
        NWayMergeGenerator names (IntSortParams []) disk = (⟨out, .done⟩, none) :=
  merge_sorted_permutation (IntSortParams []) intLt IntLess_neverFails intLt_strictWeakOrder
    intLt_lessThanNil [[3, 5, 5, 8, 9], [5], []] (by
      intro c hc
      simp only [List.mem_cons, List.mem_singleton, List.not_mem_nil, or_false] at hc
      rcases hc with rfl | rfl | rfl <;> simp [NonDecreasing, intLt])

/-- C13 (empty input). On an input with zero lines, for any budget,
`ExternalSort` returns an empty chunk list with a nil error and leaves the
storage as it was; and `NWayMergeGenerator` on an empty chunk list ends its
output sequence without emitting a record. -/
theorem empty_input {ρ ε : Type} (sort_params : SortParams ρ ε) (file : String)
    (bufsize : Int) (disk : Disk) (hin : sort_params.FSInterface.openRead file = .ok []) :
    ExternalSort file bufsize sort_params disk = ⟨.returned [] none, disk⟩ ∧
      NWayMergeGenerator [] sort_params disk = (⟨[], .done⟩, none) := by
  refine ⟨?_, rfl⟩
  simp [ExternalSort, hin, splitLoop, readLines, SortCollection.Len]

theorem empty_input_witness :
    ExternalSort "f" 5 (IntSortParams []) [] = ⟨.returned [] none, []⟩ ∧
      NWayMergeGenerator [] (IntSortParams []) [] = (⟨[], .done⟩, none) :=
  empty_input (IntSortParams []) "f" 5 [] rfl

theorem selectMin_single {ρ ε : Type} (less : ρ → Option ρ → Except ε Bool)
    (lt : ρ → Option ρ → Bool) (hnf : NeverFails less lt) (x : ρ) :
    selectMin less [some x] = .ok (some x, 0) := by
  have h : (some (some x) : Option (Option ρ)).join = some x := rfl
  simp only [selectMin, scanMin, List.head?_cons, h, hnf x (some x)]
  cases lt x (some x) <;> rfl

theorem consumerLoop_single {ρ ε : Type} (less : ρ → Option ρ → Except ε Bool)
    (lt : ρ → Option ρ → Bool) (hnf : NeverFails less lt) (fuel : Nat) :
    ∀ (slot : Option ρ) (items : List ρ), (slot.toList ++ items).length < fuel →
      consumerLoop less fuel [slot] [⟨items, .closed⟩] = ⟨slot.toList ++ items, .done⟩ := by
  induction fuel with
  | zero => intro slot items h; simp at h
  | succ fuel ih =>
    intro slot items hfuel
    rw [consumerLoop, fill_closed [slot] [⟨items, .closed⟩] rfl (by simp)]
    simp only [views, List.zipWith_cons_cons, List.zipWith_nil_right, List.map_cons,
      List.map_nil, List.any_cons, List.any_nil, Bool.or_false]
    cases hv : slot.toList ++ items with
    | nil => simp
    | cons x t =>
      rw [hv] at hfuel
      have hrec := ih none t (by simpa using Nat.lt_of_succ_lt_succ hfuel)
      simp only [Option.toList, List.nil_append] at hrec
      simp [selectMin_single less lt hnf x, hrec]

theorem lineBytes_append (xs ys : List String) :
    lineBytes (xs ++ ys) = lineBytes xs + lineBytes ys := by
  simp [lineBytes]

theorem NWayMergeGenerator_single {ρ ε : Type} (sp : SortParams ρ ε)
    (lt : ρ → Option ρ → Bool) (hnf : NeverFails sp.Less lt) (encInt : Int → Bytes)
    (enc : ρ → Bytes) (hd : DecodeOk sp.codec encInt enc) (hr : ReadsOk sp.FSInterface)
    (path : String) (records : List ρ) (disk : Disk)
    (hfile : disk.lookup path = some (chunkFile encInt enc records)) :
    NWayMergeGenerator [path] sp disk = (⟨records, .done⟩, none) := by
  have hopen : openChunks sp.FSInterface disk [path] = some [chunkFile encInt enc records] := by
    simp only [openChunks, hr.1, hr.2, hfile]
  have hloop := consumerLoop_single sp.Less lt hnf (records.length + 1) none records
    (by simp)
  simp only [Option.toList, List.nil_append] at hloop
  unfold NWayMergeGenerator
  rw [if_pos (List.nodup_singleton path), hopen]
  simp only [List.map_cons, List.map_nil, producer_chunkFile sp.codec encInt enc hd, consumer,
    List.sum_cons, List.sum_nil, Nat.add_zero, List.length_singleton, List.replicate_one, hloop]

theorem splitLoop_one_line {ρ ε : Type} (sp : SortParams ρ ε) (encInt : Int → Bytes)
    (enc : ρ → Bytes) (hm : MarshalOk sp.codec encInt enc) (hw : WritesOk sp.FSInterface)
    (file : String) (bufsize : Int) (line : String) (r : ρ) (hp : sp.LineConvert line = some r)
    (disk : Disk) :
    splitLoop sp file bufsize 2 [line] 0 [] disk = splitWrote file encInt enc [[r]] disk := by
  have hread : readLines sp.LineConvert bufsize [line] [] 0 = ([some r], []) := by
    simp only [readLines, bufferLine, hp, List.nil_append]
    split <;> rfl
  have hstep := splitLoop_step sp encInt enc hm hw file bufsize 1 [line] 0 [] disk [r] [r]
    (by simp) (by rw [hread]; rfl) (by simp [sort_Sort, SortCollection.Len, insertionOuter])
  rw [hstep, hread]
  simp [splitLoop, readLines, SortCollection.Len, splitWrote, chunkFiles]

/-- C14 (single chunk). With a comparator that never fails, a codec that
encodes and round-trips and a storage in which no call fails: when the input
has a parseable line and the byte lengths of its parseable lines total at most
the budget, `ExternalSort` returns exactly one chunk, a permutation of all
parsed records, and `NWayMergeGenerator` on the returned list emits that
chunk's records in their stored order; an input of one parseable line gives
one chunk holding its record, for any budget; and on any one-chunk list
`NWayMergeGenerator` emits exactly the chunk's records in their stored order
and ends normally. -/
theorem single_chunk {ρ ε : Type} (sort_params : SortParams ρ ε) (lt : ρ → Option ρ → Bool)
    (hnf : NeverFails sort_params.Less lt) (encInt : Int → Bytes) (enc : ρ → Bytes)
    (hm : MarshalOk sort_params.codec encInt enc) (hd : DecodeOk sort_params.codec encInt enc)
    (hw : WritesOk sort_params.FSInterface) (hr : ReadsOk sort_params.FSInterface)
    (file : String) (bufsize : Int) (disk : Disk) :
    (∀ input : List String, sort_params.FSInterface.openRead file = .ok input →
      input.filterMap sort_params.LineConvert ≠ [] →
      lineBytes (input.filter (parseable sort_params.LineConvert)) ≤ bufsize →
      ∃ written : List ρ, written.Perm (input.filterMap sort_params.LineConvert) ∧
        ExternalSort file bufsize sort_params disk
          = splitWrote file encInt enc [written] disk ∧
        NWayMergeGenerator [chunkName file 0] sort_params
            (ExternalSort file bufsize sort_params disk).disk = (⟨written, .done⟩, none)) ∧
    (∀ (line : String) (r : ρ), sort_params.FSInterface.openRead file = .ok [line] →
      sort_params.LineConvert line = some r →
      ExternalSort file bufsize sort_params disk = splitWrote file encInt enc [[r]] disk) ∧
    (∀ (path : String) (records : List ρ) (D : Disk),
      D.lookup path = some (chunkFile encInt enc records) →
      NWayMergeGenerator [path] sort_params D = (⟨records, .done⟩, none)) := by
  refine ⟨?_, ?_, ?_⟩
  · intro input hin hne hfit
    obtain ⟨runs, written, h1, h2, _, h4, h5⟩ := ExternalSort_spec sort_params lt hnf encInt
      enc hm hw file bufsize input hin disk
    have hb : 0 ≤ bufsize :=
      le_trans (lineBytes_nonneg _) hfit
    obtain ⟨h4a, _, h4c⟩ := h4 hb
    have hF : input.filter (parseable sort_params.LineConvert) ≠ [] := by
      intro h
      rw [← filterMap_filter_parseable, h] at hne
      exact hne rfl
    cases h1 with
    | nil => rw [List.flatten_nil] at h4a; exact absurd h4a.symm hF
    | @cons run w runs' written' hrw hrest =>
      cases hrest with
      | @cons run2 w2 runs'' written'' _ _ =>
        exfalso
        have hlt := h4c run (by simp)
        rw [← h4a, List.flatten_cons, lineBytes_append] at hfit
        have := lineBytes_nonneg (run2 :: runs'').flatten
        omega
      | nil =>
        simp only [List.flatten_cons, List.flatten_nil, List.append_nil] at h4a
        have hperm : w.Perm (input.filterMap sort_params.LineConvert) := by
          rw [← filterMap_filter_parseable, ← h4a]; exact hrw.1
        refine ⟨w, hperm, h5, ?_⟩
        rw [h5]
        exact NWayMergeGenerator_single sort_params lt hnf encInt enc hd hr _ w _
          (by simp [splitWrote, chunkFiles, List.lookup_cons])
  · intro line r hin hp
    simp only [ExternalSort, hin, List.length_singleton]
    exact splitLoop_one_line sort_params encInt enc hm hw file bufsize line r hp disk
  · intro path records D hfile
    exact NWayMergeGenerator_single sort_params lt hnf encInt enc hd hr path records D hfile

theorem single_chunk_witness :
    (∃ written : List Int, written.Perm (["5", "No", "3", "9"].filterMap ParseInt) ∧
        ExternalSort "f" 10 (IntSortParams ["5", "No", "3", "9"]) []
          = splitWrote "f" intEncInt intEnc [written] [] ∧
        NWayMergeGenerator ["f.chunk.00000000.gz"] (IntSortParams ["5", "No", "3", "9"])
            (ExternalSort "f" 10 (IntSortParams ["5", "No", "3", "9"]) []).disk
          = (⟨written, .done⟩, none)) ∧
      ExternalSort "f" (-4) (IntSortParams ["7"]) [] = splitWrote "f" intEncInt intEnc [[7]] [] ∧
      NWayMergeGenerator ["c"] (IntSortParams []) [("c", chunkFile intEncInt intEnc [2, 1])]
        = (⟨[2, 1], .done⟩, none) :=
  ⟨(single_chunk (IntSortParams ["5", "No", "3", "9"]) intLt IntLess_neverFails intEncInt intEnc
      intCodec_marshalOk intCodec_decodeOk (okFS_writesOk _) (okFS_readsOk _) "f" 10 []).1
      ["5", "No", "3", "9"] rfl (by decide) (by decide),
    (single_chunk (IntSortParams ["7"]) intLt IntLess_neverFails intEncInt intEnc
      intCodec_marshalOk intCodec_decodeOk (okFS_writesOk _) (okFS_readsOk _) "f" (-4) []).2.1
      "7" 7 rfl rfl,
    (single_chunk (IntSortParams []) intLt IntLess_neverFails intEncInt intEnc
      intCodec_marshalOk intCodec_decodeOk (okFS_writesOk _) (okFS_readsOk _) "f" 0 []).2.2
      "c" [2, 1] [("c", chunkFile intEncInt intEnc [2, 1])] (by decide)⟩

theorem length_le_flatten {α : Type} (L : List (List α)) (h : ∀ l ∈ L, 1 ≤ l.length) :
    L.length ≤ L.flatten.length := by
  induction L with
  | nil => simp
  | cons l L ih =>
    have h1 := h l (by simp)
    have h2 := ih (fun l' hl' => h l' (by simp [hl']))
    simp only [List.length_cons, List.flatten_cons, List.length_append]
    omega

theorem written_nonempty {ρ ε : Type} (sort_params : SortParams ρ ε)
    (lt : ρ → Option ρ → Bool) (hnf : NeverFails sort_params.Less lt) (encInt : Int → Bytes)
    (enc : ρ → Bytes) (hm : MarshalOk sort_params.codec encInt enc)
    (hw : WritesOk sort_params.FSInterface) (file : String) (bufsize : Int)
    (input : List String) (hin : sort_params.FSInterface.openRead file = .ok input)
    (disk : Disk) :
    ∃ written : List (List ρ),
      ExternalSort file bufsize sort_params disk = splitWrote file encInt enc written disk ∧
      (∀ w ∈ written, 1 ≤ w.length ∧
        chunkFile encInt enc w = encInt (w.length : Int) ++ (w.map enc).flatten) ∧
      written.length ≤ (input.filterMap sort_params.LineConvert).length := by
  obtain ⟨runs, written, h1, h2, h3, h4, h5⟩ := ExternalSort_spec sort_params lt hnf encInt enc
    hm hw file bufsize input hin disk
  have hlen : ∀ w ∈ written, 1 ≤ w.length := by
    clear h3 h4 h5
    induction h1 with
    | nil => intro w hw'; simp at hw'
    | @cons run w0 runs' written' hrw _ ih =>
      intro w hw'
      rcases List.mem_cons.mp hw' with h | h
      · subst h
        obtain ⟨hne, hpar⟩ := h2 run (by simp)
        rw [hrw.1.length_eq]
        cases run with
        | nil => exact absurd rfl hne
        | cons l tl =>
          have hl := hpar l (by simp)
          simp only [parseable, Option.isSome_iff_exists] at hl
          obtain ⟨r, hr⟩ := hl
          simp [List.filterMap_cons, hr]
      · exact ih (fun r hr => h2 r (by simp [hr])) w h
  refine ⟨written, h5, fun w hw' => ⟨hlen w hw', rfl⟩, ?_⟩
  have hperm := written_flatten_perm sort_params.LineConvert lt runs written h1
  rw [← filterMap_flatten_runs] at hperm
  have hpre := List.IsPrefix.filterMap sort_params.LineConvert h3
  rw [filterMap_filter_parseable] at hpre
  calc written.length ≤ written.flatten.length := length_le_flatten written hlen
    _ = (runs.flatten.filterMap sort_params.LineConvert).length := hperm.length_eq
    _ ≤ (input.filterMap sort_params.LineConvert).length := hpre.length_le

/-- C18 (comparator failure during the split's sort). For indices in range,
`SortCollection.Less(i, j)` returns the comparator's verdict of element `i`
against element `j` when element `i` is non-nil and the comparator succeeds,
returns false when element `i` is nil, and panics exactly when element `i` is
non-nil and the comparator reports an error; a panic of `Less` leaves the
insertion loops and `sort.Sort` as the same panic; and when `sort.Sort` panics
on the buffer of a round, `ExternalSort` ends with that panic, not with a
returned error, and the chunk of that round is not written. -/
theorem Less_failure_panics {ρ ε : Type} (sort_params : SortParams ρ ε)
    (s : SortCollection ρ) (i j : Nat) (hi : i < s.length) (hj : j < s.length) :
    (∀ (x : ρ) (b : Bool), s[i]? = some (some x) → sort_params.Less x s[j]?.join = .ok b →
      SortCollection.Less sort_params.Less s i j = .ok b) ∧
    (s[i]? = some none → SortCollection.Less sort_params.Less s i j = .ok false) ∧
    (∀ p : Panic ε, SortCollection.Less sort_params.Less s i j = .error p ↔
      ∃ (x : ρ) (e : ε), s[i]? = some (some x) ∧ sort_params.Less x s[j]?.join = .error e ∧
        p = .failedToSort e) ∧
    (∀ (n : Nat) (data : SortCollection ρ) (p : Panic ε),
      SortCollection.Less sort_params.Less data (n + 1) n = .error p →
      insertionInner sort_params.Less (n + 1) data = .error p) ∧
    (∀ (k n : Nat) (data : SortCollection ρ) (p : Panic ε),
      insertionInner sort_params.Less n data = .error p →
      insertionOuter sort_params.Less (k + 1) n data = .error p) ∧
    (∀ (file : String) (bufsize : Int) (fuel : Nat) (input : List String) (chunk_idx : Nat)
      (chunks : List String) (disk : Disk) (p : Panic ε),
      (readLines sort_params.LineConvert bufsize input [] 0).1 ≠ [] →
      sort_Sort sort_params.Less (readLines sort_params.LineConvert bufsize input [] 0).1
        = .error p →
      splitLoop sort_params file bufsize (fuel + 1) input chunk_idx chunks disk
        = ⟨.panic p, disk⟩) := by
  have hsj : s[j]? = some s[j] := List.getElem?_eq_getElem hj
  have hsi : s[i]? = some s[i] := List.getElem?_eq_getElem hi
  refine ⟨?_, ?_, ?_, ?_, ?_, ?_⟩
  · intro x b hx hb
    rw [hsj] at hb
    simp only [Option.join] at hb
    simp only [SortCollection.Less, hx, hsj]
    simp only [Option.bind, id] at hb
    rw [hb]
  · intro hx
    simp only [SortCollection.Less, hx]
  · intro p
    cases hxi : s[i] with
    | none =>
      rw [hxi] at hsi
      simp [SortCollection.Less, hsi]
    | some x =>
      rw [hxi] at hsi
      simp only [SortCollection.Less, hsi, hsj, Option.join, Option.bind, id, Option.some.injEq,
        exists_and_left, exists_eq_left']
      cases hless : sort_params.Less x s[j] with
      | ok b => simp
      | error e =>
        simp only [Except.error.injEq, exists_eq_left']
        exact ⟨fun h => h.symm, fun h => h.symm⟩
  · intro n data p h
    simp only [insertionInner, h]
  · intro k n data p h
    simp only [insertionOuter, h]
  · intro file bufsize fuel input chunk_idx chunks disk p hne hsort
    rw [splitLoop, hsort]
    have hlen : ¬ SortCollection.Len (readLines sort_params.LineConvert bufsize input [] 0).1
        = 0 := by
      simpa [SortCollection.Len] using hne
    rw [if_neg hlen]

theorem Less_failure_panics_witness :
    SortCollection.Less MixedLess [some (.int 5), some (.other 1)] 1 0
        = .error (.failedToSort "Failed to convert") ∧
      SortCollection.Less MixedLess [some (.int 5), none] 1 0 = .ok false ∧
      SortCollection.Less MixedLess [some (.int 5), some (.int 7)] 0 1 = .ok true ∧
      ExternalSort "f" 100 (mixedParamsOn ["5", "x"]) []
        = ⟨.panic (.failedToSort "Failed to convert"), []⟩ :=
  ⟨((Less_failure_panics (mixedParamsOn ["5", "x"]) [some (.int 5), some (.other 1)] 1 0
      (by decide) (by decide)).2.2.1 _).mpr ⟨.other 1, "Failed to convert", rfl, rfl, rfl⟩,
    (Less_failure_panics (mixedParamsOn ["5", "x"]) [some (.int 5), none] 1 0
      (by decide) (by decide)).2.1 rfl,
    (Less_failure_panics (mixedParamsOn ["5", "x"]) [some (.int 5), some (.int 7)] 0 1
      (by decide) (by decide)).1 (.int 5) true rfl rfl,
    (Less_failure_panics (mixedParamsOn ["5", "x"]) [some (.int 5), some (.other 1)] 1 0
      (by decide) (by decide)).2.2.2.2.2 "f" 100 2 ["5", "x"] 0 [] []
      (.failedToSort "Failed to convert") (by decide) rfl⟩

theorem fill_more {ρ : Type} (ls : List (Option ρ)) :
    ∀ (cs : List (Chan ρ)) (ls' : List (Option ρ)) (cs' : List (Chan ρ)),
      fill ls cs = .filled ls' cs' true → ∃ (j : Nat) (y : ρ), ls'[j]? = some (some y) := by
  induction ls with
  | nil => intro cs ls' cs' h; simp [fill] at h
  | cons slot ls ih =>
    intro cs ls' cs' h
    cases cs with
    | nil => simp [fill] at h
    | cons c cs =>
      obtain ⟨items, fin⟩ := c
      cases hrec : fill ls cs with
      | dead =>
        cases slot with
        | some x => simp [fill, hrec] at h
        | none =>
          cases items with
          | cons x later => simp [fill, hrec] at h
          | nil => cases fin <;> simp [fill, hrec] at h
      | filled ls1 cs1 more1 =>
        cases slot with
        | some x =>
          simp only [fill, hrec, FillEnd.filled.injEq] at h
          exact ⟨0, x, by rw [← h.1]; simp⟩
        | none =>
          cases items with
          | cons x later =>
            simp only [fill, hrec, FillEnd.filled.injEq] at h
            exact ⟨0, x, by rw [← h.1]; simp⟩
          | nil =>
            cases fin with
            | dead => simp [fill] at h
            | closed =>
              simp only [fill, hrec, FillEnd.filled.injEq] at h
              obtain ⟨h1, _, h3⟩ := h
              subst h3
              obtain ⟨j, y, hj⟩ := ih cs ls1 cs1 hrec
              exact ⟨j + 1, y, by rw [← h1]; simpa using hj⟩

theorem selectMin_held {ρ ε : Type} (less : ρ → Option ρ → Except ε Bool)
    (lt : ρ → Option ρ → Bool) (hnf : NeverFails less lt) (hnil : LessThanNil lt)
    (loglines : List (Option ρ)) (hheld : ∃ (j : Nat) (y : ρ), loglines[j]? = some (some y)) :
    ∃ (m : ρ) (i : Nat), selectMin less loglines = .ok (some m, i) ∧
      loglines[i]?.join = some m := by
  obtain ⟨min, i, hsel, h1, h2, _⟩ := selectMin_spec less lt hnf hnil loglines
  obtain ⟨j0, y0, hy0⟩ := hheld
  have hj0 : j0 < loglines.length := by
    by_contra hge
    rw [List.getElem?_eq_none (Nat.le_of_not_lt hge)] at hy0
    exact absurd hy0 (by simp)
  cases min with
  | none =>
    have := h2 rfl j0 hj0
    simp [hy0] at this
  | some m => exact ⟨m, i, hsel, h1⟩

theorem consumerLoop_no_panic {ρ ε : Type} (less : ρ → Option ρ → Except ε Bool)
    (lt : ρ → Option ρ → Bool) (hnf : NeverFails less lt) (hnil : LessThanNil lt)
    (fuel : Nat) : ∀ (ls : List (Option ρ)) (cs : List (Chan ρ)),
      (consumerLoop less fuel ls cs).fin ≠ .panic := by
  induction fuel with
  | zero => intro ls cs; simp [consumerLoop]
  | succ fuel ih =>
    intro ls cs
    rw [consumerLoop]
    cases hfill : fill ls cs with
    | dead => simp
    | filled ls' cs' more =>
      cases more with
      | false => simp
      | true =>
        obtain ⟨m, i, hsel, hget⟩ := selectMin_held less lt hnf hnil ls'
          (fill_more ls cs ls' cs' hfill)
        simp only [hsel, hget]
        exact ih _ _

/-- C16, as amended (the coordinator never selects the absent value). For
every comparator that returns without error and reports every record as less
than nil: in every selection over a frontier in which at least one slot holds
a record, the selected slot holds a record, also when the first slot is
empty; and in no merge run, over any chunk list, is the branch "Attempting to
write nil" taken. -/
theorem no_nil_selected {ρ ε : Type} (less : ρ → Option ρ → Except ε Bool)
    (lt : ρ → Option ρ → Bool) (hnf : NeverFails less lt) (hnil : LessThanNil lt) :
    (∀ loglines : List (Option ρ), (∃ (j : Nat) (y : ρ), loglines[j]? = some (some y)) →
      ∃ (m : ρ) (i : Nat), selectMin less loglines = .ok (some m, i) ∧
        loglines[i]? = some (some m)) ∧
    (∀ (fuel : Nat) (loglines : List (Option ρ)) (channels : List (Chan ρ)),
      (consumerLoop less fuel loglines channels).fin ≠ .panic) ∧
    ∀ channels : List (Chan ρ), (consumer less channels).fin ≠ .panic := by
  refine ⟨?_, consumerLoop_no_panic less lt hnf hnil, fun channels =>
    consumerLoop_no_panic less lt hnf hnil _ _ _⟩
  intro loglines hheld
  obtain ⟨m, i, hsel, hget⟩ := selectMin_held less lt hnf hnil loglines hheld
  refine ⟨m, i, hsel, ?_⟩
  cases hv : loglines[i]? with
  | none => simp [hv] at hget
  | some s => simp [hv] at hget; rw [hget]

theorem no_nil_selected_witness :
    (∃ (m : Int) (i : Nat), selectMin IntLess exampleFrontier = .ok (some m, i) ∧
        exampleFrontier[i]? = some (some m)) ∧
      (consumer IntLess [⟨[], .closed⟩, ⟨[7, 9], .closed⟩, ⟨[8], .dead⟩]).fin ≠ .panic :=
  ⟨(no_nil_selected IntLess intLt IntLess_neverFails intLt_lessThanNil).1 exampleFrontier
      ⟨1, 3, by decide⟩,
    (no_nil_selected IntLess intLt IntLess_neverFails intLt_lessThanNil).2.2 _⟩

/-- C16 as stated fails for a comparator that returns without error but does
not report a record as less than nil: with the first chunk exhausted and the
second holding the record 7, the selection keeps the nil of slot 0, the branch
"Attempting to write nil" is taken, and the send on the closed output panics
before the record 7 is emitted. -/
theorem no_nil_selected_counterexample :
    (∀ (x : Int) (y : Option Int), ∃ b, IntLessNilFalse x y = .ok b) ∧
      selectMin IntLessNilFalse [none, some 7] = .ok (none, 0) ∧
      consumer IntLessNilFalse [⟨[], .closed⟩, ⟨[7], .closed⟩] = ⟨[], .panic⟩ := by
  refine ⟨?_, rfl, by decide⟩
  intro x y
  cases y with
  | none => exact ⟨false, rfl⟩
  | some o => exact ⟨decide (x < o), rfl⟩

theorem splitLoop_chunks {ρ ε : Type} (sp : SortParams ρ ε) (file : String) (bufsize : Int)
    (fuel : Nat) : ∀ (input : List String) (chunk_idx : Nat) (chunks : List String)
      (disk : Disk) (cs : List String),
      (splitLoop sp file bufsize fuel input chunk_idx chunks disk).fin = .returned cs none →
      ∃ contents : List Bytes,
        cs = chunks ++ (List.range' chunk_idx contents.length).map (chunkName file) ∧
        (splitLoop sp file bufsize fuel input chunk_idx chunks disk).disk
          = (List.zip ((List.range' chunk_idx contents.length).map (chunkName file))
              contents).reverse ++ disk := by
  induction fuel with
  | zero => intro input idx chunks disk cs h; simp [splitLoop] at h
  | succ fuel ih =>
    intro input idx chunks disk cs h
    rw [splitLoop] at h ⊢
    split at h
    · rename_i hlen
      rw [if_pos hlen]
      simp only [SplitEnd.returned.injEq, and_true] at h
      exact ⟨[], by simp [h], by simp⟩
    · rename_i hlen
      rw [if_neg hlen]
      repeat' split at h
      all_goals first
        | exact absurd h (by simp)
        | skip
      rename_i bytes _ _ _ _ _ _ _
      obtain ⟨contents, hc1, hc2⟩ := ih _ _ _ _ cs h
      refine ⟨bytes :: contents, ?_, ?_⟩
      · rw [hc1]; simp [List.range'_succ]
      · rw [hc2]; simp [List.range'_succ]

theorem digitChar_isDigit (d : Nat) (h : d < 10) : (Nat.digitChar d).isDigit = true := by
  interval_cases d <;> rfl

theorem toDigitsCore_isDigit (fuel : Nat) : ∀ (n : Nat) (ds : List Char),
    (∀ c ∈ ds, c.isDigit = true) → ∀ c ∈ Nat.toDigitsCore 10 fuel n ds, c.isDigit = true := by
  induction fuel with
  | zero => intro n ds h; simpa [Nat.toDigitsCore] using h
  | succ fuel ih =>
    intro n ds h
    have hd : ∀ c ∈ Nat.digitChar (n % 10) :: ds, c.isDigit = true := by
      intro c hc
      rcases List.mem_cons.mp hc with hc | hc
      · subst hc; exact digitChar_isDigit _ (Nat.mod_lt _ (by decide))
      · exact h c hc
    simp only [Nat.toDigitsCore]
    split
    · exact hd
    · exact ih _ _ hd

theorem pad8_isDigit (n : Nat) : ∀ c ∈ pad8 n, c.isDigit = true := by
  intro c hc
  simp only [pad8, List.mem_append, List.mem_replicate] at hc
  rcases hc with ⟨_, hc⟩ | hc
  · subst hc; rfl
  · exact toDigitsCore_isDigit _ _ [] (by simp) c hc

theorem pad8_length (n : Nat) : 8 ≤ (pad8 n).length ∧ (n < 10 ^ 8 → (pad8 n).length = 8) := by
  simp only [pad8, List.length_append, List.length_replicate]
  refine ⟨by omega, fun h => ?_⟩
  have := Nat.toDigitsCore_length 10 (by decide) (n + 1) n 8 h (by decide)
  simp only [Nat.toDigits]
  omega

/-- C12 (chunk naming). Whenever `ExternalSort` on the input identifier
`file` returns a chunk list with a nil error, the list holds at position `i`,
counting from 0, the path `file`, ".chunk.", the index `i` in decimal padded
with zeros to at least eight digits (exactly eight below 10^8), ".gz"; the
paths are pairwise distinct, and the storage has gained one file per path, in
that order. -/
theorem chunk_naming {ρ ε : Type} (sort_params : SortParams ρ ε) (file : String)
    (bufsize : Int) (disk : Disk) (chunks : List String)
    (hsucc : (ExternalSort file bufsize sort_params disk).fin = .returned chunks none) :
    chunks = (List.range chunks.length).map (chunkName file) ∧ chunks.Nodup ∧
      (∃ contents : List Bytes, contents.length = chunks.length ∧
        (ExternalSort file bufsize sort_params disk).disk
          = (List.zip chunks contents).reverse ++ disk) ∧
      ∀ i : Nat, chunkName file i = file ++ ".chunk." ++ String.mk (pad8 i) ++ ".gz" ∧
        digitsValue (pad8 i) 0 = i ∧ (∀ c ∈ pad8 i, c.isDigit = true) ∧
        8 ≤ (pad8 i).length ∧ (i < 10 ^ 8 → (pad8 i).length = 8) := by
  have hshape : ∃ contents : List Bytes,
      chunks = (List.range contents.length).map (chunkName file) ∧
      (ExternalSort file bufsize sort_params disk).disk
        = (List.zip ((List.range contents.length).map (chunkName file)) contents).reverse
          ++ disk := by
    unfold ExternalSort at hsucc ⊢
    cases hin : sort_params.FSInterface.openRead file with
    | error e => simp [hin] at hsucc
    | ok input =>
      simp only [hin] at hsucc ⊢
      obtain ⟨contents, h1, h2⟩ := splitLoop_chunks sort_params file bufsize _ _ _ _ _ _ hsucc
      refine ⟨contents, ?_, ?_⟩
      · rw [h1, List.nil_append, List.range_eq_range']
      · rw [h2, List.range_eq_range']
  obtain ⟨contents, h1, h2⟩ := hshape
  have hlen : chunks.length = contents.length := by rw [h1]; simp
  refine ⟨by rw [hlen]; exact h1, ?_, ⟨contents, hlen.symm, by rw [h2, ← h1]⟩, ?_⟩
  · rw [h1]
    exact List.Nodup.map (fun i j h => chunkName_injective file i j h) (List.nodup_range _)
  · intro i
    exact ⟨rfl, pad8_value i, pad8_isDigit i, (pad8_length i).1, (pad8_length i).2⟩

theorem chunk_naming_witness :
    ["f.chunk.00000000.gz", "f.chunk.00000001.gz", "f.chunk.00000002.gz"]
        = (List.range ["f.chunk.00000000.gz", "f.chunk.00000001.gz",
            "f.chunk.00000002.gz"].length).map (chunkName "f") ∧
      ["f.chunk.00000000.gz", "f.chunk.00000001.gz", "f.chunk.00000002.gz"].Nodup ∧
      (∃ contents : List Bytes, contents.length
          = ["f.chunk.00000000.gz", "f.chunk.00000001.gz", "f.chunk.00000002.gz"].length ∧
        (ExternalSort "f" 1 (IntSortParams ["5", "3", "9", "1", "No", "7"]) []).disk
          = (List.zip ["f.chunk.00000000.gz", "f.chunk.00000001.gz", "f.chunk.00000002.gz"]
              contents).reverse ++ []) ∧
      ∀ i : Nat, chunkName "f" i = "f" ++ ".chunk." ++ String.mk (pad8 i) ++ ".gz" ∧
        digitsValue (pad8 i) 0 = i ∧ (∀ c ∈ pad8 i, c.isDigit = true) ∧
        8 ≤ (pad8 i).length ∧ (i < 10 ^ 8 → (pad8 i).length = 8) :=
  chunk_naming (IntSortParams ["5", "3", "9", "1", "No", "7"]) "f" 1 []
    ["f.chunk.00000000.gz", "f.chunk.00000001.gz", "f.chunk.00000002.gz"] (by decide)

theorem LaneStep_queue {ρ : Type} (l l' : Lane ρ) (h : LaneStep l l')
    (hq : l.queue.length ≤ channelCapacity) : l'.queue.length ≤ channelCapacity := by
  cases h with
  | decode => exact hq
  | send _ _ _ _ hroom => simp only [List.length_append, List.length_singleton]; omega
  | receive => simp only [List.length_cons] at hq ⊢; omega
  | emit => exact hq

theorem MergeReaches_queue {ρ : Type} (chunks : List (List ρ)) (lanes : List (Lane ρ))
    (h : MergeReaches chunks lanes) :
    lanes.length = chunks.length ∧ ∀ l ∈ lanes, l.queue.length ≤ channelCapacity := by
  induction h with
  | start =>
    refine ⟨by simp [startLanes], ?_⟩
    intro l hl
    simp only [startLanes, List.mem_map] at hl
    obtain ⟨c, _, hc⟩ := hl
    subst hc
    simp
  | step lanes lanes' _ hstep ih =>
    cases hstep with
    | lane i l l' hi hl =>
      refine ⟨by simp [ih.1], ?_⟩
      intro l0 hl0
      rcases List.mem_or_eq_of_mem_set hl0 with h0 | h0
      · exact ih.2 l0 h0
      · subst h0
        exact LaneStep_queue l _ hl (ih.2 l (List.getElem?_mem hi))

theorem Lane.held_le {ρ : Type} (l : Lane ρ) (hq : l.queue.length ≤ channelCapacity) :
    l.held ≤ channelCapacity + 2 := by
  unfold Lane.held
  have h1 : l.pending.toList.length ≤ 1 := by cases l.pending <;> simp
  have h2 : l.slot.toList.length ≤ 1 := by cases l.slot <;> simp
  omega

theorem sum_le_mul {α : Type} (f : α → Nat) (b : Nat) (L : List α) (h : ∀ a ∈ L, f a ≤ b) :
    (L.map f).sum ≤ b * L.length := by
  induction L with
  | nil => simp
  | cons a L ih =>
    have h1 := h a (by simp)
    have h2 := ih (fun a' ha' => h a' (by simp [ha']))
    simp only [List.map_cons, List.sum_cons, List.length_cons, Nat.mul_succ]
    omega

/-- C15 (bounded backpressure). Every per-chunk queue has the fixed capacity
1000, whatever the input; so in every state a merge over `k` chunks of any
lengths passes through, under any interleaving of its workers and its
coordinator, each queue holds at most 1000 records, each chunk has at most
1002 decoded records not yet handed to the output (the queue, one record
pending in the worker, one in the frontier), and the merge has at most
`1002 * k` of them. -/
theorem bounded_backpressure {ρ : Type} (chunks : List (List ρ)) (lanes : List (Lane ρ))
    (h : MergeReaches chunks lanes) :
    channelCapacity = 1000 ∧ lanes.length = chunks.length ∧
      (∀ l ∈ lanes, l.queue.length ≤ 1000 ∧ l.held ≤ 1002) ∧
      (lanes.map Lane.held).sum ≤ 1002 * chunks.length := by
  obtain ⟨hlen, hq⟩ := MergeReaches_queue chunks lanes h
  have hheld : ∀ l ∈ lanes, l.held ≤ 1002 := fun l hl => l.held_le (hq l hl)
  refine ⟨rfl, hlen, fun l hl => ⟨hq l hl, hheld l hl⟩, ?_⟩
  rw [← hlen]
  exact sum_le_mul Lane.held 1002 lanes hheld

theorem bounded_backpressure_witness :
    channelCapacity = 1000 ∧
      ([⟨[3], none, [5], some 4⟩, ⟨[], none, [], none⟩] : List (Lane Int)).length
        = [[4, 5, 3], []].length ∧
      (∀ l ∈ ([⟨[3], none, [5], some 4⟩, ⟨[], none, [], none⟩] : List (Lane Int)),
        l.queue.length ≤ 1000 ∧ l.held ≤ 1002) ∧
      (([⟨[3], none, [5], some 4⟩, ⟨[], none, [], none⟩] : List (Lane Int)).map
        Lane.held).sum ≤ 1002 * [[4, 5, 3], []].length :=
  bounded_backpressure [[4, 5, 3], []] [⟨[3], none, [5], some 4⟩, ⟨[], none, [], none⟩]
    (.step _ _ (.step _ _ (.step _ _ (.step _ _ (.step _ _ .start
      (.lane _ 0 _ _ rfl (.decode 4 [5, 3] [] none)))
      (.lane _ 0 _ _ rfl (.send [5, 3] 4 [] none (by decide))))
      (.lane _ 0 _ _ rfl (.receive [5, 3] none 4 [])))
      (.lane _ 0 _ _ rfl (.decode 5 [3] [] (some 4))))
      (.lane _ 0 _ _ rfl (.send [3] 5 [] (some 4) (by decide))))

theorem Swap_length {ρ ε : Type} (s s' : SortCollection ρ) (i j : Nat)
    (h : (SortCollection.Swap s i j : Except (Panic ε) (SortCollection ρ)) = .ok s') :
    s'.length = s.length := by
  unfold SortCollection.Swap at h
  split at h
  · simp only [Except.ok.injEq] at h
    rw [← h]; simp
  · exact absurd h (by simp)

theorem insertionInner_length {ρ ε : Type} (less : ρ → Option ρ → Except ε Bool) (j : Nat) :
    ∀ s s' : SortCollection ρ, insertionInner less j s = .ok s' → s'.length = s.length := by
  induction j with
  | zero => intro s s' h; simp only [insertionInner, Except.ok.injEq] at h; rw [h]
  | succ j ih =>
    intro s s' h
    rw [insertionInner] at h
    split at h
    · exact absurd h (by simp)
    · simp only [Except.ok.injEq] at h; rw [h]
    · split at h
      · exact absurd h (by simp)
      · rename_i s1 hswap
        rw [ih s1 s' h]
        exact Swap_length s s1 _ _ hswap

theorem insertionOuter_length {ρ ε : Type} (less : ρ → Option ρ → Except ε Bool) (k : Nat) :
    ∀ (i : Nat) (s s' : SortCollection ρ), insertionOuter less k i s = .ok s' →
      s'.length = s.length := by
  induction k with
  | zero => intro i s s' h; simp only [insertionOuter, Except.ok.injEq] at h; rw [h]
  | succ k ih =>
    intro i s s' h
    rw [insertionOuter] at h
    split at h
    · exact absurd h (by simp)
    · rename_i s1 hinner
      rw [ih _ s1 s' h]
      exact insertionInner_length less i s s1 hinner

theorem splitLoop_written {ρ ε : Type} (sp : SortParams ρ ε) (file : String) (bufsize : Int)
    (fuel : Nat) : ∀ (input : List String) (chunk_idx : Nat) (chunks : List String)
      (disk : Disk),
      ∃ contents : Disk,
        (splitLoop sp file bufsize fuel input chunk_idx chunks disk).disk
          = contents.reverse ++ disk ∧
        (∀ f ∈ contents, NonEmptyChunk sp f.2) ∧
        contents.length ≤ (input.filterMap sp.LineConvert).length := by
  induction fuel with
  | zero => intro input idx chunks disk; exact ⟨[], by simp [splitLoop], by simp, by simp⟩
  | succ fuel ih =>
    intro input idx chunks disk
    obtain ⟨taken, h1, h2⟩ := readLines_spec sp.LineConvert bufsize input [] 0
    simp only [List.map_nil, List.nil_append] at h1 h2
    rw [splitLoop]
    split
    · exact ⟨[], rfl, by simp, by simp⟩
    · rename_i hlen
      repeat' split
      all_goals first
        | exact ⟨[], rfl, by simp, by simp⟩
        | skip
      rename_i s1 hsort _ _ _ _ _ b hb _ _ _ bytes hbytes _ _ _ _ _ _
      obtain ⟨contents, hc1, hc2, hc3⟩ := ih
        (readLines sp.LineConvert bufsize input [] 0).2 (idx + 1)
        (chunks ++ [chunkName file idx]) ((chunkName file idx, bytes) :: disk)
      refine ⟨(chunkName file idx, bytes) :: contents, by rw [hc1]; simp, ?_, ?_⟩
      · intro f hf
        rcases List.mem_cons.mp hf with hf | hf
        · subst hf
          refine ⟨s1, chunkName file idx, b, ?_, hb, hbytes⟩
          have := insertionOuter_length sp.Less _ _ _ s1 hsort
          simp only [SortCollection.Len] at hlen ⊢
          omega
        · exact hc2 f hf
      · have hne : 1 ≤ (taken.filterMap sp.LineConvert).length := by
          rw [h2] at hlen
          simp only [SortCollection.Len, List.length_map] at hlen
          omega
        have hsplit : (input.filterMap sp.LineConvert).length
            = (taken.filterMap sp.LineConvert).length
              + ((readLines sp.LineConvert bufsize input [] 0).2.filterMap
                  sp.LineConvert).length := by
          conv_lhs => rw [h1]
          rw [List.filterMap_append, List.length_append]
        simp only [List.length_cons]
        omega

/-- C17 (no empty chunk). For every finite input and every integer budget,
whatever fails: every chunk file a run of `ExternalSort` completes is written
from a non-empty buffer (its declared count is at least 1), and the number of
chunk files is at most the number of parseable input lines; and in a run in
which the comparator, the codec and the storage do not fail, the split returns
after writing chunks each of which holds as many records as it declares, at
least one, and their number is at most the number of parseable lines. -/
theorem no_empty_chunk {ρ ε : Type} (sort_params : SortParams ρ ε) (file : String)
    (bufsize : Int) (disk : Disk) :
    (∃ contents : Disk,
      (ExternalSort file bufsize sort_params disk).disk = contents.reverse ++ disk ∧
      (∀ f ∈ contents, NonEmptyChunk sort_params f.2) ∧
      ∀ input : List String, sort_params.FSInterface.openRead file = .ok input →
        contents.length ≤ (input.filterMap sort_params.LineConvert).length) ∧
    ∀ (lt : ρ → Option ρ → Bool) (encInt : Int → Bytes) (enc : ρ → Bytes)
      (input : List String), NeverFails sort_params.Less lt →
      MarshalOk sort_params.codec encInt enc → WritesOk sort_params.FSInterface →
      sort_params.FSInterface.openRead file = .ok input →
      ∃ written : List (List ρ),
        ExternalSort file bufsize sort_params disk = splitWrote file encInt enc written disk ∧
        (∀ w ∈ written, 1 ≤ w.length ∧
          chunkFile encInt enc w = encInt (w.length : Int) ++ (w.map enc).flatten) ∧
        written.length ≤ (input.filterMap sort_params.LineConvert).length := by
  refine ⟨?_, fun lt encInt enc input hnf hm hw hin =>
    written_nonempty sort_params lt hnf encInt enc hm hw file bufsize input hin disk⟩
  unfold ExternalSort
  cases hin : sort_params.FSInterface.openRead file with
  | error e => exact ⟨[], rfl, by simp, fun input h => by simp at h⟩
  | ok input =>
    obtain ⟨contents, h1, h2, h3⟩ := splitLoop_written sort_params file bufsize
      (input.length + 1) input 0 [] disk
    refine ⟨contents, h1, h2, ?_⟩
    intro input' h
    simp only [Except.ok.injEq] at h
    subst h
    exact h3

theorem no_empty_chunk_witness :
    (∃ contents : Disk,
      (ExternalSort "f" (-3) (IntSortParamsOn (failOpenFS ["5", "3", "No", "7"]
          "f.chunk.00000002.gz")) []).disk = contents.reverse ++ [] ∧
      (∀ f ∈ contents, NonEmptyChunk (IntSortParamsOn (failOpenFS ["5", "3", "No", "7"]
          "f.chunk.00000002.gz")) f.2) ∧
      contents.length ≤ (["5", "3", "No", "7"].filterMap ParseInt).length) ∧
    ∃ written : List (List Int),
      ExternalSort "f" (-3) (IntSortParams ["5", "3", "No", "7"]) []
        = splitWrote "f" intEncInt intEnc written [] ∧
      (∀ w ∈ written, 1 ≤ w.length ∧
        chunkFile intEncInt intEnc w = intEncInt (w.length : Int) ++ (w.map intEnc).flatten) ∧
      written.length ≤ (["5", "3", "No", "7"].filterMap ParseInt).length := by
  obtain ⟨contents, h1, h2, h3⟩ := (no_empty_chunk (IntSortParamsOn
    (failOpenFS ["5", "3", "No", "7"] "f.chunk.00000002.gz")) "f" (-3) []).1
  exact ⟨⟨contents, h1, h2, h3 _ rfl⟩,
    (no_empty_chunk (IntSortParams ["5", "3", "No", "7"]) "f" (-3) []).2 intLt intEncInt
      intEnc ["5", "3", "No", "7"] IntLess_neverFails intCodec_marshalOk (okFS_writesOk _)
      rfl⟩

/-- C3 (tie-break). In every round of the merge coordinator that reaches the
selection, with the frontier `loglines'` the filling pass leaves, under a
comparator that never fails, is a strict weak order and reports every record
as less than nil: the record the round emits is held in a slot `i` of the
frontier such that no held record is less than it and it is less than every
record held in a slot before `i`, so that among records that compare equal
the one of the chunk first in the chunk list is emitted; the round sends that
record on the output, clears slot `i` only, and the run goes on from there. -/
theorem emitted_lowest_index {ρ ε : Type} (less : ρ → Option ρ → Except ε Bool)
    (lt : ρ → Option ρ → Bool) (hnf : NeverFails less lt) (hswo : StrictWeakOrder lt)
    (hnil : LessThanNil lt) (fuel : Nat) (loglines loglines' : List (Option ρ))
    (channels channels' : List (Chan ρ))
    (hfill : fill loglines channels = .filled loglines' channels' true) :
    ∃ (m : ρ) (i : Nat), loglines'[i]? = some (some m) ∧
      (∀ (j : Nat) (y : ρ), loglines'[j]? = some (some y) → lt y (some m) = false) ∧
      (∀ (j : Nat) (y : ρ), j < i → loglines'[j]? = some (some y) → lt m (some y) = true) ∧
      (∀ (j : Nat) (y : ρ), loglines'[j]? = some (some y) → lt m (some y) = false → i ≤ j) ∧
      consumerLoop less (fuel + 1) loglines channels
        = ⟨m :: (consumerLoop less fuel (loglines'.set i none) channels').out,
            (consumerLoop less fuel (loglines'.set i none) channels').fin⟩ := by
  obtain ⟨m, i, hsel, hi, h1, h2, h3⟩ := selectMin_lowest_index less lt hnf hswo hnil loglines'
    (fill_more loglines channels loglines' channels' hfill)
  refine ⟨m, i, hi, h1, h2, h3, ?_⟩
  rw [consumerLoop, hfill]
  simp only [hsel, hi, Option.join]
  rfl

theorem emitted_lowest_index_witness :
    ∃ (m : Int) (i : Nat), exampleFrontier[i]? = some (some m) ∧
      (∀ (j : Nat) (y : Int), exampleFrontier[j]? = some (some y) →
        intLt y (some m) = false) ∧
      (∀ (j : Nat) (y : Int), j < i → exampleFrontier[j]? = some (some y) →
        intLt m (some y) = true) ∧
      (∀ (j : Nat) (y : Int), exampleFrontier[j]? = some (some y) →
        intLt m (some y) = false → i ≤ j) ∧
      consumerLoop IntLess (5 + 1) [none, some 3, none, some 1]
          [⟨[], .closed⟩, ⟨[4], .closed⟩, ⟨[1, 2], .closed⟩, ⟨[], .closed⟩]
        = ⟨m :: (consumerLoop IntLess 5 (exampleFrontier.set i none)
              [⟨[], .closed⟩, ⟨[4], .closed⟩, ⟨[2], .closed⟩, ⟨[], .closed⟩]).out,
            (consumerLoop IntLess 5 (exampleFrontier.set i none)
              [⟨[], .closed⟩, ⟨[4], .closed⟩, ⟨[2], .closed⟩, ⟨[], .closed⟩]).fin⟩ :=
  emitted_lowest_index IntLess intLt IntLess_neverFails intLt_strictWeakOrder
    intLt_lessThanNil 5 [none, some 3, none, some 1] exampleFrontier
    [⟨[], .closed⟩, ⟨[4], .closed⟩, ⟨[1, 2], .closed⟩, ⟨[], .closed⟩]
    [⟨[], .closed⟩, ⟨[4], .closed⟩, ⟨[2], .closed⟩, ⟨[], .closed⟩] (by decide)

theorem fill_views {ρ : Type} (ls : List (Option ρ)) :
    ∀ (cs : List (Chan ρ)) (ls' : List (Option ρ)) (cs' : List (Chan ρ)) (more : Bool),
      ls.length = cs.length → fill ls cs = .filled ls' cs' more →
      ls'.length = cs'.length ∧ views ls' cs' = views ls cs := by
  induction ls with
  | nil =>
    intro cs ls' cs' more hlen h
    cases cs with
    | nil =>
      simp only [fill, FillEnd.filled.injEq] at h
      obtain ⟨h1, h2, _⟩ := h
      subst h1; subst h2
      exact ⟨rfl, rfl⟩
    | cons c cs => simp at hlen
  | cons slot ls ih =>
    intro cs ls' cs' more hlen h
    cases cs with
    | nil => simp at hlen
    | cons c cs =>
      obtain ⟨items, fin⟩ := c
      cases hrec : fill ls cs with
      | dead =>
        cases slot with
        | some x => simp [fill, hrec] at h
        | none =>
          cases items with
          | cons x later => simp [fill, hrec] at h
          | nil => cases fin <;> simp [fill, hrec] at h
      | filled ls1 cs1 more1 =>
        obtain ⟨ih1, ih2⟩ := ih cs ls1 cs1 more1 (by simpa using hlen) hrec
        simp only [views] at ih2
        cases slot with
        | some x =>
          simp only [fill, hrec, FillEnd.filled.injEq] at h
          obtain ⟨h1, h2, _⟩ := h
          subst h1; subst h2
          exact ⟨by simp [ih1], by simp [views, ih2]⟩
        | none =>
          cases items with
          | cons x later =>
            simp only [fill, hrec, FillEnd.filled.injEq] at h
            obtain ⟨h1, h2, _⟩ := h
            subst h1; subst h2
            exact ⟨by simp [ih1], by simp [views, ih2]⟩
          | nil =>
            cases fin with
            | dead => simp [fill] at h
            | closed =>
              simp only [fill, hrec, FillEnd.filled.injEq] at h
              obtain ⟨h1, h2, _⟩ := h
              subst h1; subst h2
              exact ⟨by simp [ih1], by simp [views, ih2]⟩

theorem views_clear {ρ : Type} (ls : List (Option ρ)) :
    ∀ (cs : List (Chan ρ)) (i : Nat) (x : ρ), ls.length = cs.length → ls[i]?.join = some x →
      (views (ls.set i none) cs).flatten.length + 1 = (views ls cs).flatten.length := by
  induction ls with
  | nil => intro cs i x _ h; simp at h
  | cons slot ls ih =>
    intro cs i x hlen h
    cases cs with
    | nil => simp at hlen
    | cons c cs =>
      cases i with
      | zero =>
        simp only [List.getElem?_cons_zero, Option.join, Option.bind, id] at h
        subst h
        simp [views]
      | succ i =>
        simp only [List.getElem?_cons_succ] at h
        have := ih cs i x (by simpa using hlen) h
        simp only [views] at this
        simp only [views, List.set_cons_succ, List.zipWith_cons_cons, List.flatten_cons,
          List.length_append]
        omega

theorem CoordReaches_count {ρ ε : Type} (less : ρ → Option ρ → Except ε Bool)
    (ls0 : List (Option ρ)) (cs0 : List (Chan ρ)) (hlen : ls0.length = cs0.length)
    (pre : List ρ) (ls : List (Option ρ)) (cs : List (Chan ρ))
    (h : CoordReaches less ls0 cs0 pre ls cs) :
    ls.length = cs.length ∧
      pre.length + (views ls cs).flatten.length = (views ls0 cs0).flatten.length := by
  induction h with
  | start => exact ⟨hlen, by simp⟩
  | round pre ls ls' cs cs' min i x _ hfill _ hx ih =>
    obtain ⟨h1, h2⟩ := fill_views ls cs ls' cs' true ih.1 hfill
    have h3 := views_clear ls' cs' i x h1 hx
    refine ⟨by simp [h1], ?_⟩
    rw [← ih.2, ← h2, List.length_append, List.length_singleton]
    omega

theorem CoordReaches_run {ρ ε : Type} (less : ρ → Option ρ → Except ε Bool)
    (ls0 : List (Option ρ)) (cs0 : List (Chan ρ)) (pre : List ρ) (ls : List (Option ρ))
    (cs : List (Chan ρ)) (h : CoordReaches less ls0 cs0 pre ls cs) :
    ∀ fuel : Nat, consumerLoop less (fuel + pre.length) ls0 cs0
      = ⟨pre ++ (consumerLoop less fuel ls cs).out, (consumerLoop less fuel ls cs).fin⟩ := by
  induction h with
  | start => intro fuel; simp
  | round pre ls ls' cs cs' min i x _ hfill hsel hx ih =>
    intro fuel
    have hstep : consumerLoop less (fuel + 1) ls cs
        = ⟨x :: (consumerLoop less fuel (ls'.set i none) cs').out,
            (consumerLoop less fuel (ls'.set i none) cs').fin⟩ := by
      rw [consumerLoop, hfill]
      simp only [hsel, hx]
    have := ih (fuel + 1)
    rw [hstep] at this
    rw [List.length_append, List.length_singleton,
      show fuel + (pre.length + 1) = fuel + 1 + pre.length by omega, this]
    simp

theorem views_start_length {ρ : Type} (cs : List (Chan ρ)) :
    (views (List.replicate cs.length none) cs).flatten.length
      = (cs.map fun c => c.items.length).sum := by
  induction cs with
  | nil => simp [views]
  | cons c cs ih =>
    simp only [views] at ih
    simp [views, List.replicate_succ, ih]

/-- C7, as amended (a comparator failure in the merge). For every merge run
in which the comparator reports a failure during a selection step, after the
coordinator has emitted the records `pre`: the output sequence holds exactly
`pre` and nothing more, no error marker is placed on it, and the process is
terminated, by `os.Exit(-1)` when the failing comparison was against a record
and by the nil dereference panic of `min.String()` when it was against a nil
`min`; the error `NWayMergeGenerator` returns to its caller is always nil. -/
theorem comparator_failure_ends_run {ρ ε : Type} (sort_params : SortParams ρ ε)
    (channels : List (Chan ρ)) (pre : List ρ) (loglines loglines' : List (Option ρ))
    (cs cs' : List (Chan ρ)) (e : ε) (min : Option ρ)
    (hreach : CoordReaches sort_params.Less (List.replicate channels.length none) channels
      pre loglines cs)
    (hfill : fill loglines cs = .filled loglines' cs' true)
    (hsel : selectMin sort_params.Less loglines' = .error (e, min)) :
    consumer sort_params.Less channels = ⟨pre, failureEnd e min⟩ ∧
      (∀ (chunks : List String) (disk : Disk) (streams : List Bytes), chunks.Nodup →
        openChunks sort_params.FSInterface disk chunks = some streams →
        streams.map (producer sort_params.codec) = channels →
        NWayMergeGenerator chunks sort_params disk = (⟨pre, failureEnd e min⟩, none)) ∧
      (failureEnd e min = .exit e ∨ failureEnd e min = .nilDeref) ∧
      ∀ (chunks : List String) (disk : Disk),
        (NWayMergeGenerator chunks sort_params disk).2 = none := by
  have hrun : consumer sort_params.Less channels = ⟨pre, failureEnd e min⟩ := by
    obtain ⟨_, hcount⟩ := CoordReaches_count sort_params.Less _ channels (by simp) pre
      loglines cs hreach
    rw [views_start_length] at hcount
    have hfail : ∀ fuel : Nat, consumerLoop sort_params.Less (fuel + 1) loglines cs
        = ⟨[], failureEnd e min⟩ := by
      intro fuel
      rw [consumerLoop, hfill]
      simp only [hsel]
      cases min <;> rfl
    unfold consumer
    have hfuel : (channels.map fun c => c.items.length).sum + 1
        = ((views loglines cs).flatten.length + 1) + pre.length := by omega
    rw [hfuel, CoordReaches_run sort_params.Less _ channels pre loglines cs hreach, hfail]
    simp
  refine ⟨hrun, ?_, ?_, fun _ _ => rfl⟩
  · intro chunks disk streams hnd hopen hstreams
    unfold NWayMergeGenerator
    rw [if_pos hnd, hopen]
    simp only [hstreams, hrun]
  · cases min
    · exact Or.inr rfl
    · exact Or.inl rfl

theorem comparator_failure_ends_run_witness :
    consumer MixedLess [⟨[.int 1, .other 7], .closed⟩, ⟨[.int 3], .closed⟩]
        = ⟨[.int 1], .exit "Failed to convert"⟩ ∧
      consumer IntLessErrOnNil [⟨[], .closed⟩, ⟨[7], .closed⟩] = ⟨[], .nilDeref⟩ := by
  have hreach : CoordReaches MixedLess [none, none]
      [⟨[.int 1, .other 7], .closed⟩, ⟨[.int 3], .closed⟩] [.int 1]
      [none, some (.int 3)] [⟨[.other 7], .closed⟩, ⟨[], .closed⟩] :=
    @CoordReaches.round Mixed String MixedLess [none, none]
      [⟨[.int 1, .other 7], .closed⟩, ⟨[.int 3], .closed⟩] [] [none, none]
      [some (.int 1), some (.int 3)] [⟨[.int 1, .other 7], .closed⟩, ⟨[.int 3], .closed⟩]
      [⟨[.other 7], .closed⟩, ⟨[], .closed⟩] (some (.int 1)) 0 (.int 1) .start
      (by decide) rfl rfl
  have hstart : CoordReaches IntLessErrOnNil [none, none]
      [⟨[], .closed⟩, ⟨[7], .closed⟩] [] [none, none] [⟨[], .closed⟩, ⟨[7], .closed⟩] :=
    .start
  exact ⟨(comparator_failure_ends_run mixedParams
      [⟨[.int 1, .other 7], .closed⟩, ⟨[.int 3], .closed⟩] [.int 1]
      [none, some (.int 3)] [some (.other 7), some (.int 3)]
      [⟨[.other 7], .closed⟩, ⟨[], .closed⟩] [⟨[], .closed⟩, ⟨[], .closed⟩]
      "Failed to convert" (some (.other 7)) hreach (by decide) rfl).1,
    (comparator_failure_ends_run errOnNilParams [⟨[], .closed⟩, ⟨[7], .closed⟩] []
      [none, none] [none, some 7] [⟨[], .closed⟩, ⟨[7], .closed⟩]
      [⟨[], .closed⟩, ⟨[], .closed⟩] "other side is nil" none hstart (by decide) rfl).1⟩

theorem splitLoop_flushed {ρ ε : Type} (sp : SortParams ρ ε) (lt : ρ → Option ρ → Bool)
    (hnf : NeverFails sp.Less lt) (encInt : Int → Bytes) (enc : ρ → Bytes)
    (hm : MarshalOk sp.codec encInt enc) (hw : WritesOk sp.FSInterface)
    (file : String) (bufsize : Int) (fuel : Nat) :
    ∀ (input : List String), input.length < fuel →
    ∀ (chunk_idx : Nat) (chunks : List String) (disk : Disk),
    ∃ written : List (List ρ),
      List.Forall₂ (fun buffer w => buffer ≠ [] ∧ (w.map some).Perm buffer ∧
          sort_Sort sp.Less buffer = .ok (w.map some) ∧
          (StrictWeakOrder lt → NonDecreasing lt w))
        (flushedBuffers sp.LineConvert bufsize fuel input) written ∧
      splitLoop sp file bufsize fuel input chunk_idx chunks disk =
        ⟨.returned (chunks ++ (chunkFiles file encInt enc chunk_idx written).map Prod.fst) none,
          (chunkFiles file encInt enc chunk_idx written).reverse ++ disk⟩ := by
  induction fuel with
  | zero => intro input h; simp at h
  | succ fuel ih =>
    intro input hfuel chunk_idx chunks disk
    obtain ⟨taken, h1, h2⟩ := readLines_spec sp.LineConvert bufsize input [] 0
    simp only [List.map_nil, List.nil_append] at h1 h2
    cases hB : taken.filterMap sp.LineConvert with
    | nil =>
      rw [hB] at h2
      refine ⟨[], ?_, ?_⟩
      · rw [flushedBuffers, h2]
        simp [SortCollection.Len]
      · simpa [chunkFiles] using
          splitLoop_empty sp file bufsize fuel input chunk_idx chunks disk (by simpa using h2)
    | cons b0 B0 =>
      obtain ⟨S, hS1, hS2, hS3⟩ := sort_Sort_spec sp.Less lt hnf (taken.filterMap sp.LineConvert)
      have hne : taken.filterMap sp.LineConvert ≠ [] := by simp [hB]
      have hstep := splitLoop_step sp encInt enc hm hw file bufsize fuel input chunk_idx chunks
        disk (taken.filterMap sp.LineConvert) S hne h2 hS1
      have htaken : taken ≠ [] := by
        intro h; rw [h] at hB; simp at hB
      have hrest : (readLines sp.LineConvert bufsize input [] 0).2.length < fuel := by
        have := congrArg List.length h1
        rw [List.length_append] at this
        have := List.length_pos.mpr htaken
        omega
      obtain ⟨written, hr1, hr2⟩ :=
        ih (readLines sp.LineConvert bufsize input [] 0).2 hrest (chunk_idx + 1)
          (chunks ++ [chunkName file chunk_idx])
          ((chunkName file chunk_idx, chunkFile encInt enc S) :: disk)
      have hlen : ¬ SortCollection.Len (readLines sp.LineConvert bufsize input [] 0).1 = 0 := by
        rw [h2]
        simpa [SortCollection.Len] using hne
      refine ⟨S :: written, ?_, ?_⟩
      · rw [flushedBuffers, if_neg hlen]
        refine List.Forall₂.cons ⟨?_, ?_, ?_, hS3⟩ hr1
        · rw [h2]; simpa using hne
        · rw [h2]; exact hS2.map some
        · rw [h2]; exact hS1
      · rw [hstep, hr2]
        simp [chunkFiles]

theorem forall₂_getElem? {α β : Type} (R : α → β → Prop) (xs : List α) (ys : List β)
    (h : List.Forall₂ R xs ys) : ∀ (i : Nat) (x : α) (y : β),
    xs[i]? = some x → ys[i]? = some y → R x y := by
  induction h with
  | nil => intro i x y hx; simp at hx
  | cons hr _ ih =>
    intro i x y hx hy
    cases i with
    | zero =>
      simp only [List.getElem?_cons_zero, Option.some.injEq] at hx hy
      subst hx; subst hy
      exact hr
    | succ i =>
      simp only [List.getElem?_cons_succ] at hx hy
      exact ih i x y hx hy

theorem ExternalSort_flushed {ρ ε : Type} (sp : SortParams ρ ε) (lt : ρ → Option ρ → Bool)
    (hnf : NeverFails sp.Less lt) (encInt : Int → Bytes) (enc : ρ → Bytes)
    (hm : MarshalOk sp.codec encInt enc) (hw : WritesOk sp.FSInterface)
    (file : String) (bufsize : Int) (input : List String)
    (hin : sp.FSInterface.openRead file = .ok input) (disk : Disk) :
    ∃ written : List (List ρ),
      List.Forall₂ (fun buffer w => buffer ≠ [] ∧ (w.map some).Perm buffer ∧
          sort_Sort sp.Less buffer = .ok (w.map some) ∧
          (StrictWeakOrder lt → NonDecreasing lt w))
        (flushedBuffers sp.LineConvert bufsize (input.length + 1) input) written ∧
      ExternalSort file bufsize sp disk = splitWrote file encInt enc written disk ∧
      (ExternalSort file bufsize sp disk).fin
        = .returned ((List.range written.length).map (chunkName file)) none ∧
      ∀ (i : Nat) (w : List ρ), written[i]? = some w →
        List.lookup (chunkName file i) (ExternalSort file bufsize sp disk).disk
          = some (chunkFile encInt enc w) := by
  obtain ⟨written, h1, h2⟩ := splitLoop_flushed sp lt hnf encInt enc hm hw file bufsize
    (input.length + 1) input (Nat.lt_succ_self _) 0 [] disk
  have hES : ExternalSort file bufsize sp disk = splitWrote file encInt enc written disk := by
    simp only [ExternalSort, hin, h2, splitWrote, List.nil_append]
  refine ⟨written, h1, hES, ?_, ?_⟩
  · rw [hES]
    simp only [splitWrote, chunkFiles_names, List.range_eq_range']
  · intro i w hw'
    rw [hES]
    have := lookup_chunkFiles file encInt enc written 0 disk i w hw'
    rw [Nat.zero_add] at this
    exact this

/-- C4 (chunk sortedness). For every finite input and every integer budget,
under a comparator that never fails and is a strict weak order, with a codec
that encodes and a storage in which no write fails: `ExternalSort` returns
after writing one chunk per buffer its loop flushed, the records of each chunk
being in non-decreasing order under the comparator and a permutation of the
records buffered for that chunk; the file stored under the `i`-th chunk path
is the encoded count followed by the encodings of these records in that
order. -/
theorem flushed_chunk_sorted {ρ ε : Type} (sort_params : SortParams ρ ε)
    (lt : ρ → Option ρ → Bool) (hnf : NeverFails sort_params.Less lt)
    (hswo : StrictWeakOrder lt) (encInt : Int → Bytes) (enc : ρ → Bytes)
    (hm : MarshalOk sort_params.codec encInt enc) (hw : WritesOk sort_params.FSInterface)
    (file : String) (bufsize : Int) (input : List String)
    (hin : sort_params.FSInterface.openRead file = .ok input) (disk : Disk) :
    ∃ written : List (List ρ),
      List.Forall₂ (fun buffer w => NonDecreasing lt w ∧ (w.map some).Perm buffer)
        (flushedBuffers sort_params.LineConvert bufsize (input.length + 1) input) written ∧
      ExternalSort file bufsize sort_params disk = splitWrote file encInt enc written disk ∧
      ∀ (i : Nat) (w : List ρ), written[i]? = some w →
        List.lookup (chunkName file i) (ExternalSort file bufsize sort_params disk).disk
          = some (encInt (w.length : Int) ++ (w.map enc).flatten) := by
  obtain ⟨written, h1, h2, _, h4⟩ := ExternalSort_flushed sort_params lt hnf encInt enc hm hw
    file bufsize input hin disk
  exact ⟨written, h1.imp fun _ _ h => ⟨h.2.2.2 hswo, h.2.1⟩, h2, h4⟩

theorem flushed_chunk_sorted_witness :
    flushedBuffers ParseInt 1 7 ["5", "3", "9", "1", "No", "7"]
        = [[some 5, some 3], [some 9, some 1], [some 7]] ∧
    ∃ written : List (List Int),
      List.Forall₂ (fun buffer w => NonDecreasing intLt w ∧ (w.map some).Perm buffer)
        (flushedBuffers ParseInt 1 (["5", "3", "9", "1", "No", "7"].length + 1)
          ["5", "3", "9", "1", "No", "7"]) written ∧
      ExternalSort "f" 1 (IntSortParams ["5", "3", "9", "1", "No", "7"]) []
        = splitWrote "f" intEncInt intEnc written [] ∧
      ∀ (i : Nat) (w : List Int), written[i]? = some w →
        List.lookup (chunkName "f" i)
            (ExternalSort "f" 1 (IntSortParams ["5", "3", "9", "1", "No", "7"]) []).disk
          = some (intEncInt (w.length : Int) ++ (w.map intEnc).flatten) :=
  ⟨by decide,
    flushed_chunk_sorted (IntSortParams ["5", "3", "9", "1", "No", "7"]) intLt
      IntLess_neverFails intLt_strictWeakOrder intEncInt intEnc intCodec_marshalOk
      (okFS_writesOk _) "f" 1 ["5", "3", "9", "1", "No", "7"] rfl []⟩

/-- C11 (chunk write/read round trip and count integrity). For every finite
input and every integer budget, with a comparator that never fails, a codec
that encodes and round-trips on the stream and a storage in which no write
fails: `ExternalSort` returns the paths of one chunk per buffer its loop
flushed; every buffer is non-empty; the file stored under the `i`-th path is
the encoded count `n`, the number of records of the `i`-th buffer, followed by
the encodings of exactly these `n` records in sorted order and nothing else;
and the merge worker reading that file delivers exactly those records in the
same order and then closes its queue. -/
theorem chunk_round_trip {ρ ε : Type} (sort_params : SortParams ρ ε)
    (lt : ρ → Option ρ → Bool) (hnf : NeverFails sort_params.Less lt) (encInt : Int → Bytes)
    (enc : ρ → Bytes) (hm : MarshalOk sort_params.codec encInt enc)
    (hd : DecodeOk sort_params.codec encInt enc) (hw : WritesOk sort_params.FSInterface)
    (file : String) (bufsize : Int) (input : List String)
    (hin : sort_params.FSInterface.openRead file = .ok input) (disk : Disk) :
    ∃ written : List (List ρ),
      List.Forall₂ (fun buffer w => buffer ≠ [] ∧ w.length = buffer.length ∧
          (w.map some).Perm buffer ∧ (StrictWeakOrder lt → NonDecreasing lt w))
        (flushedBuffers sort_params.LineConvert bufsize (input.length + 1) input) written ∧
      (ExternalSort file bufsize sort_params disk).fin
        = .returned ((List.range written.length).map (chunkName file)) none ∧
      ExternalSort file bufsize sort_params disk = splitWrote file encInt enc written disk ∧
      ∀ (i : Nat) (buffer : SortCollection ρ) (w : List ρ),
        (flushedBuffers sort_params.LineConvert bufsize (input.length + 1) input)[i]?
          = some buffer →
        written[i]? = some w →
        List.lookup (chunkName file i) (ExternalSort file bufsize sort_params disk).disk
            = some (encInt (buffer.length : Int) ++ (w.map enc).flatten) ∧
          producer sort_params.codec (encInt (buffer.length : Int) ++ (w.map enc).flatten)
            = ⟨w, .closed⟩ := by
  obtain ⟨written, h1, h2, h3, h4⟩ := ExternalSort_flushed sort_params lt hnf encInt enc hm hw
    file bufsize input hin disk
  have hlen : ∀ (buffer : SortCollection ρ) (w : List ρ), (w.map some).Perm buffer →
      w.length = buffer.length := by
    intro buffer w hp
    simpa using hp.length_eq
  refine ⟨written, h1.imp fun _ _ h => ⟨h.1, hlen _ _ h.2.1, h.2.1, h.2.2.2⟩, h3, h2, ?_⟩
  intro i buffer w hb hw'
  have hR := forall₂_getElem? _ _ _ h1 i buffer w hb hw'
  have hfile : encInt (buffer.length : Int) ++ (w.map enc).flatten = chunkFile encInt enc w := by
    rw [chunkFile, hlen buffer w hR.2.1]
  rw [hfile]
  exact ⟨h4 i w hw', producer_chunkFile sort_params.codec encInt enc hd w⟩

theorem chunk_round_trip_witness :
    flushedBuffers ParseInt 2 6 ["5", "No", "3", "9", "1"]
        = [[some 5, some 3, some 9], [some 1]] ∧
    ∃ written : List (List Int),
      List.Forall₂ (fun buffer w => buffer ≠ [] ∧ w.length = buffer.length ∧
          (w.map some).Perm buffer ∧ (StrictWeakOrder intLt → NonDecreasing intLt w))
        (flushedBuffers ParseInt 2 (["5", "No", "3", "9", "1"].length + 1)
          ["5", "No", "3", "9", "1"]) written ∧
      (ExternalSort "f" 2 (IntSortParams ["5", "No", "3", "9", "1"]) []).fin
        = .returned ((List.range written.length).map (chunkName "f")) none ∧
      ExternalSort "f" 2 (IntSortParams ["5", "No", "3", "9", "1"]) []
        = splitWrote "f" intEncInt intEnc written [] ∧
      ∀ (i : Nat) (buffer : SortCollection Int) (w : List Int),
        (flushedBuffers ParseInt 2 (["5", "No", "3", "9", "1"].length + 1)
          ["5", "No", "3", "9", "1"])[i]? = some buffer →
        written[i]? = some w →
        List.lookup (chunkName "f" i)
            (ExternalSort "f" 2 (IntSortParams ["5", "No", "3", "9", "1"]) []).disk
            = some (intEncInt (buffer.length : Int) ++ (w.map intEnc).flatten) ∧
          producer intCodec (intEncInt (buffer.length : Int) ++ (w.map intEnc).flatten)
            = ⟨w, .closed⟩ :=
  ⟨by decide,
    chunk_round_trip (IntSortParams ["5", "No", "3", "9", "1"]) intLt IntLess_neverFails
      intEncInt intEnc intCodec_marshalOk intCodec_decodeOk (okFS_writesOk _) "f" 2
      ["5", "No", "3", "9", "1"] rfl []⟩

end ExtSort
